import Mathlib

/-!
Verification development for the text layout and pagination engine in
`src/utils/pdfMarkdownParser.ts` (an ebook-to-PDF composer core).

Modelling conventions.

* Text is `List Char`; the TypeScript `string` operations (split, trim,
  regex matches) are implemented as executable functions on `List Char`.
* The jsPDF drawing surface is modelled by an explicit document state
  `DocSt` carrying the current font variant, current font size, a page
  counter (`doc.addPage()` increments it) and the list of issued draw
  commands.  The font family argument of `doc.setFont` never influences
  behaviour in the source (one family per document), so it is omitted.
* `doc.getTextWidth` is modelled by a metrics parameter
  `m : Char → Variant → ℚ`: the width of a string is the sum of the widths
  of its characters under the font variant that is current at the moment of
  the call (jsPDF itself sums per-glyph advances).  Every style built by
  `parseInlineMarkdown` has `heading = none`, so `applyStyle` never changes
  the font size inside one component invocation; the size dependence of the
  metrics is therefore absorbed into the character-width table, and the
  current font size is threaded separately where the source reads it
  (`doc.getFontSize()` for the indentation width, `applyStyle`, and the
  recorded size of each draw command).
* Numbers are exact rationals `ℚ`; the source's floating point constants
  (`0.352778`, `0.95`, `0.25`, …) become the corresponding rationals.
-/

/-- The four jsPDF font styles that `applyStyle` can select. -/
inductive Variant where
  | normal
  | bold
  | italic
  | boldItalic
deriving DecidableEq

/-- `'ordered' | 'unordered'` of the source's `listType` field. -/
inductive ListKind where
  | ordered
  | unordered
deriving DecidableEq

/-- The `TextStyle` interface of the source. -/
structure TextStyle where
  bold : Bool
  italic : Bool
  heading : Option Nat
  list : Bool
  listType : Option ListKind
  listLevel : Nat
  indentation : ℚ
deriving DecidableEq

/-- The `TextSegment` interface of the source: a styled run of text. -/
structure TextSegment where
  text : List Char
  style : TextStyle
deriving DecidableEq

/-- The initial `currentStyle` of `parseInlineMarkdown`. -/
def plainStyle : TextStyle :=
  { bold := false, italic := false, heading := none, list := false,
    listType := none, listLevel := 0, indentation := 0 }

/-- A metrics provider: width of one character under a font variant. -/
abbrev Meas := Char → Variant → ℚ

/-- Width of a string: sum of its character widths under one variant
(models `doc.getTextWidth` at a fixed font state). -/
def strW (m : Meas) (v : Variant) (s : List Char) : ℚ :=
  (s.map (fun c => m c v)).sum

/-- The font style selected by `applyStyle` from the bold/italic flags. -/
def variantOf (st : TextStyle) : Variant :=
  if st.bold && st.italic then Variant.boldItalic
  else if st.bold then Variant.bold
  else if st.italic then Variant.italic
  else Variant.normal

/-- The font size selected by `applyStyle`: the heading scale table of the
source (`headingSizes`), or the base size when `style.heading` is falsy
(`null` or `0`).  Levels above 6 do not occur in the pipeline (the heading
regex caps the level at 6). -/
def headingSize (st : TextStyle) (base : ℚ) : ℚ :=
  match st.heading with
  | some 1 => base * 2
  | some 2 => base * 3 / 2
  | some 3 => base * 117 / 100
  | some 4 => base * 1
  | some 5 => base * 83 / 100
  | some 6 => base * 67 / 100
  | _ => base

/-- Width of one segment measured the way the source always measures it:
`applyStyle(doc, seg.style, …)` followed by `doc.getTextWidth(seg.text)`. -/
def segW (m : Meas) (seg : TextSegment) : ℚ :=
  strW m (variantOf seg.style) seg.text

/-- Total measured width of a broken line (the `lineWidth` loop of the
post-pass in `splitTextToLines`). -/
def lineW (m : Meas) (line : List TextSegment) : ℚ :=
  (line.map (segW m)).sum

/-- Concatenated text of a run sequence. -/
def textConcat (segs : List TextSegment) : List Char :=
  segs.foldr (fun s acc => s.text ++ acc) []

/-- A character is a markup marker of the inline dialect. -/
def isMarker (c : Char) : Bool := c = '*' || c = '_'

/-- Worker of `parseInlineMarkdown`: walks the characters with the
accumulated plain text `cur` and the running style `st`, flushing `cur`
as a run (with the current style) at each marker and toggling the
corresponding flag; a doubled marker (`**` or `__`) toggles bold and
consumes two characters, a single one toggles italic. -/
def pimGo : List Char → List Char → TextStyle → List TextSegment
  | [], cur, st => if cur = [] then [] else [⟨cur, st⟩]
  | [c], cur, st =>
      if isMarker c then
        -- single trailing marker: flush, toggle italic, end of input
        if cur = [] then [] else [⟨cur, st⟩]
      else
        [⟨cur ++ [c], st⟩]
  | c :: c2 :: rest, cur, st =>
      if isMarker c then
        let pre : List TextSegment := if cur = [] then [] else [⟨cur, st⟩]
        if c2 = c then
          pre ++ pimGo rest [] { st with bold := !st.bold }
        else
          pre ++ pimGo (c2 :: rest) [] { st with italic := !st.italic }
      else
        pimGo (c2 :: rest) (cur ++ [c]) st

/-- `parseInlineMarkdown` of the source. -/
def parseInlineMarkdown (text : List Char) : List TextSegment :=
  pimGo text [] plainStyle

/-- JavaScript `\s` on the characters this document model uses. -/
def isWs (c : Char) : Bool :=
  c = ' ' || c = '\t' || c = '\n' || c = '\r' || c = '\x0b' || c = '\x0c'

/-- JavaScript `\d`. -/
def isDigit (c : Char) : Bool := '0' ≤ c && c ≤ '9'

/-- Worker of `wordsOf`: accumulates the current chunk. -/
def wordsGo (cur : List Char) : List Char → List (List Char)
  | [] => if cur = [] then [] else [cur]
  | c :: rest =>
      if isWs c then
        if cur = [] then wordsGo [] rest else cur :: wordsGo [] rest
      else wordsGo (cur ++ [c]) rest

/-- Maximal non-whitespace chunks of a string, in order: the non-empty
pieces of `text.split(/\s+/)` (the source skips the empty pieces that JS
`split` produces at a leading/trailing separator via `if (!word) return`). -/
def wordsOf (s : List Char) : List (List Char) :=
  wordsGo [] s

/-- `calculateIndentation` of the source: leading-whitespace count halved
(integer division) times `0.25`, plus `0.25` for a list marker line, else
`0.75` if there was leading whitespace, else `0.25` for any non-blank
line. -/
def calculateIndentation (text : List Char) : ℚ :=
  let lead := (text.takeWhile isWs).length
  let baseIndent : ℚ := (lead / 2 : ℕ) * (1 / 4)
  let afterWs := text.dropWhile isWs
  let isList :=
    match afterWs with
    | [] => false
    | c :: rest =>
        if c = '-' || c = '*' then
          match rest with
          | [] => false
          | r :: _ => isWs r
        else
          let digs := afterWs.takeWhile isDigit
          let rest2 := afterWs.dropWhile isDigit
          decide (digs ≠ []) &&
            match rest2 with
            | '.' :: r2 => (match r2 with | [] => false | r :: _ => isWs r)
            | _ => false
  baseIndent +
    (if isList then 1 / 4
     else if baseIndent > 0 then 3 / 4
     else if (text.filter (fun c => !isWs c)) ≠ [] then 1 / 4
     else 0)

/-- Character loop of `splitWordIfNeeded`: `cp` is `currentPart`, `acc` the
emitted fragments; a fragment is cut as soon as the candidate exceeds
`th = maxWidth * 0.95`. -/
def swinGo (W : List Char → ℚ) (th : ℚ) (st : TextStyle) :
    List Char → List Char → List TextSegment → List TextSegment
  | [], cp, acc => if cp = [] then acc else acc ++ [⟨cp, st⟩]
  | c :: rest, cp, acc =>
      if W (cp ++ [c]) > th then
        if 2 ≤ cp.length then
          swinGo W th st rest [c] (acc ++ [⟨cp ++ ['-'], st⟩])
        else if cp ≠ [] then
          swinGo W th st rest [c] (acc ++ [⟨cp, st⟩])
        else
          swinGo W th st rest [] (acc ++ [⟨[c], st⟩])
      else
        swinGo W th st rest (cp ++ [c]) acc

/-- `splitWordIfNeeded` of the source.  `applyStyle` is called on entry, so
every width inside is measured under `variantOf style`; a word that fits
within `maxWidth` is returned whole. -/
def splitWordIfNeeded (m : Meas) (word : List Char) (style : TextStyle)
    (maxWidth : ℚ) : List TextSegment :=
  let W : List Char → ℚ := strW m (variantOf style)
  if W word ≤ maxWidth then [⟨word, style⟩]
  else swinGo W (maxWidth * 95 / 100) style word [] []

/-- State of the word-accumulation pass of `splitTextToLines`: the committed
lines (`lines[0..currentLine-1]`), the current line being built
(`currentLineSegments`), its accumulated width (`currentLineWidth`) and
the document's current font variant. -/
structure SplitSt where
  committed : List (List TextSegment)
  cur : List TextSegment
  curW : ℚ
  v : Variant
deriving DecidableEq

/-- `commitLine` of the source: pushes a non-empty current line. -/
def commitLine (s : SplitSt) : SplitSt :=
  if s.cur = [] then s
  else { s with committed := s.committed ++ [s.cur], cur := [], curW := 0 }

/-- One word step of the accumulation pass of `splitTextToLines`. -/
def splitWordStep (m : Meas) (spaceWidth availableWidth : ℚ)
    (style : TextStyle) (s : SplitSt) (word : List Char) : SplitSt :=
  -- applyStyle(doc, segment.style, doc.getFontSize(), font)
  let v := variantOf style
  let wordWidth := strW m v word
  let totalWidth := s.curW + (if s.cur = [] then 0 else spaceWidth) + wordWidth
  if totalWidth ≤ availableWidth then
    if s.cur = [] then
      { committed := s.committed, cur := [⟨word, style⟩],
        curW := s.curW + wordWidth, v := v }
    else
      { committed := s.committed,
        cur := s.cur ++ [⟨[' '], style⟩, ⟨word, style⟩],
        curW := s.curW + spaceWidth + wordWidth, v := v }
  else if wordWidth ≤ availableWidth then
    let s1 := commitLine s
    { committed := s1.committed, cur := [⟨word, style⟩], curW := wordWidth, v := v }
  else
    let s1 := if s.cur = [] then s else commitLine s
    let parts := splitWordIfNeeded m word style availableWidth
    -- parts.forEach: commit the line between fragments, the last fragment
    -- starts the next accumulation; currentLineWidth is re-measured.
    match parts with
    | [] => { committed := s1.committed, cur := [], curW := 0, v := v }
    | p :: ps =>
        -- parts.forEach with `commitLine` between fragments: every fragment
        -- but the last becomes a committed singleton line, the last starts
        -- the next accumulation with its re-measured width.
        let last := (p :: ps).getLastD p
        { committed := s1.committed ++ (p :: ps).dropLast.map (fun q => [q]),
          cur := [last], curW := strW m v last.text, v := v }

/-- One segment step of the accumulation pass: split the segment's text on
whitespace and feed every word (the style travels with each word). -/
def splitSegStep (m : Meas) (spaceWidth availableWidth : ℚ)
    (s : SplitSt) (seg : TextSegment) : SplitSt :=
  (wordsOf seg.text).foldl (splitWordStep m spaceWidth availableWidth seg.style) s

/-- Post-pass width repair of one over-wide line: re-walk the runs keeping
them only while the running width stays within budget, re-splitting any
non-space run with `splitWordIfNeeded` at the remaining budget; the
running document variant is threaded through the `applyStyle` calls.
One kept fragment of a re-split run: -/
def repairPartStep (m : Meas) (availableWidth : ℚ)
    (t : List TextSegment × ℚ × Variant) (part : TextSegment) :
    List TextSegment × ℚ × Variant :=
  if t.2.1 + strW m (variantOf part.style) part.text ≤ availableWidth then
    (t.1 ++ [part], t.2.1 + strW m (variantOf part.style) part.text, t.2.2)
  else t

/-- One run of the width-repair pass: a space run is kept when it still
fits (accounted at the entry `spaceWidth`), any other run is re-split at
the remaining budget and its fragments kept while they fit. -/
def repairSegStep (m : Meas) (spaceWidth availableWidth : ℚ)
    (s : List TextSegment × ℚ × Variant) (seg : TextSegment) :
    List TextSegment × ℚ × Variant :=
  if seg.text = [' '] then
    if s.2.1 + spaceWidth ≤ availableWidth then
      (s.1 ++ [seg], s.2.1 + spaceWidth, s.2.2)
    else s
  else
    (splitWordIfNeeded m seg.text seg.style (availableWidth - s.2.1)).foldl
      (repairPartStep m availableWidth) (s.1, s.2.1, variantOf seg.style)

def repairLine (m : Meas) (spaceWidth availableWidth : ℚ)
    (line : List TextSegment) (v0 : Variant) :
    List TextSegment × ℚ × Variant :=
  line.foldl (repairSegStep m spaceWidth availableWidth) ([], 0, v0)

/-- Post-pass of `splitTextToLines` over one line: measure the total width
(the `applyStyle` loop moves the document variant to the last segment's)
and repair the line if it exceeds the available width. -/
def fixLine (m : Meas) (spaceWidth availableWidth : ℚ)
    (s : List (List TextSegment) × Variant) (line : List TextSegment) :
    List (List TextSegment) × Variant :=
  let v1 := line.foldl (fun _ seg => variantOf seg.style) s.2
  if lineW m line > availableWidth then
    let r := repairLine m spaceWidth availableWidth line v1
    (s.1 ++ [r.1], r.2.2)
  else
    (s.1 ++ [line], v1)

/-- `splitTextToLines` of the source, also returning the document font
variant left behind by its last `applyStyle` call.  `v0` is the font
variant current on entry (it fixes `spaceWidth = doc.getTextWidth(' ')`)
and `fsz` the font size current on entry (`doc.getFontSize()`, used for
the indentation width; all pipeline styles have `heading = none`, so the
size never changes inside). -/
def splitTextToLinesSt (m : Meas) (v0 : Variant) (fsz : ℚ)
    (segments : List TextSegment) (maxWidth baseIndentation : ℚ) :
    List (List TextSegment) × Variant :=
  let availableWidth := maxWidth - baseIndentation * fsz
  let spaceWidth := m ' ' v0
  let s :=
    segments.foldl (splitSegStep m spaceWidth availableWidth)
      ⟨[], [], 0, v0⟩
  let s1 := commitLine s
  (s1.committed.filter (fun l => l ≠ [])).foldl
    (fixLine m spaceWidth availableWidth) ([], s1.v)

/-- The line list produced by `splitTextToLines`. -/
def splitTextToLines (m : Meas) (v0 : Variant) (fsz : ℚ)
    (segments : List TextSegment) (maxWidth baseIndentation : ℚ) :
    List (List TextSegment) :=
  (splitTextToLinesSt m v0 fsz segments maxWidth baseIndentation).1

/-- One drawing command issued against the jsPDF surface, together with the
font state and page counter current at the moment of `doc.text`. -/
structure DrawCmd where
  text : List Char
  x : ℚ
  y : ℚ
  v : Variant
  sz : ℚ
  page : ℕ
  alignR : Bool
deriving DecidableEq

/-- The mutable jsPDF document state the core interacts with. -/
structure DocSt where
  v : Variant
  sz : ℚ
  page : ℕ
  draws : List DrawCmd
deriving DecidableEq

/-- `doc.text(text, x, y)` at the current font state. -/
def docText (doc : DocSt) (text : List Char) (x y : ℚ) (alignR : Bool) : DocSt :=
  { doc with draws := doc.draws ++ [⟨text, x, y, doc.v, doc.sz, doc.page, alignR⟩] }

/-- `applyStyle(doc, style, base, font)`: select the font variant from the
bold/italic flags and the size from the heading table (or `base`). -/
def applyStyle (doc : DocSt) (style : TextStyle) (base : ℚ) : DocSt :=
  { doc with v := variantOf style, sz := headingSize style base }

/-- One run of the fallback (ordinary) branch of `renderJustifiedLine`:
`applyStyle`, draw at the cursor, advance by the width of
`segment.text + ' '` for a non-space run and of `segment.text` for the
space run itself. -/
def fallbackSegStep (m : Meas) (y : ℚ) (t : DocSt × ℚ) (seg : TextSegment) :
    DocSt × ℚ :=
  let d1 := applyStyle t.1 seg.style t.1.sz
  let d2 := docText d1 seg.text t.2 y false
  (d2, t.2 + strW m d1.v (seg.text ++ (if seg.text = [' '] then [] else [' '])))

/-- One indexed run of the justified branch: draw at the cursor, advance by
the measured width, and add the per-gap extra after a space run that is
not the last run of the line. -/
def justSegStep (m : Meas) (y extra : ℚ) (n : ℕ) (t : DocSt × ℚ)
    (iseg : ℕ × TextSegment) : DocSt × ℚ :=
  let d1 := applyStyle t.1 iseg.2.style t.1.sz
  let d2 := docText d1 iseg.2.text t.2 y false
  let cx := t.2 + segW m iseg.2
  if iseg.2.text = [' '] && decide (iseg.1 < n - 1) then (d2, cx + extra)
  else (d2, cx)

/-- `renderJustifiedLine` of the source.  Also returns the final value of
the local cursor `currentX` (discarded by the source, but it is the total
horizontal advance the claims speak about). -/
def renderJustifiedLine (m : Meas) (doc : DocSt) (segments : List TextSegment)
    (x y maxWidth : ℚ) (isLastLine : Bool) : DocSt × ℚ :=
  if isLastLine || segments.length ≤ 1 then
    segments.foldl (fallbackSegStep m y) (doc, x)
  else
    let doc1 :=
      segments.foldl (fun d seg => applyStyle d seg.style d.sz) doc
    let totalTextWidth := lineW m segments
    let numberOfSpaces := (segments.filter (fun s => s.text = [' '])).length
    let remainingSpace := max 0 (maxWidth - totalTextWidth)
    let extraSpacePerGap : ℚ :=
      if numberOfSpaces > 0 then remainingSpace / (numberOfSpaces : ℚ) else 0
    segments.enum.foldl
      (justSegStep m y extraSpacePerGap segments.length) (doc1, x)

/-- `text.split('\n')` (worker). -/
def splitOnNlGo (cur : List Char) : List Char → List (List Char)
  | [] => [cur]
  | c :: rest =>
      if c = '\n' then cur :: splitOnNlGo [] rest
      else splitOnNlGo (cur ++ [c]) rest

/-- `text.split('\n')`. -/
def splitOnNl (s : List Char) : List (List Char) :=
  splitOnNlGo [] s

/-- The `replace` of every `---` occurrence with a newline:
left-to-right, non-overlapping. -/
def replaceHr : List Char → List Char
  | '-' :: '-' :: '-' :: rest => '\n' :: replaceHr rest
  | c :: rest => c :: replaceHr rest
  | [] => []

/-- Worker of `collapseNewlines`: the flag records whether the previous
character was a newline. -/
def collapseNlGo : Bool → List Char → List Char
  | _, [] => []
  | inNl, c :: rest =>
      if c = '\n' then
        if inNl then collapseNlGo true rest
        else '\n' :: collapseNlGo true rest
      else c :: collapseNlGo false rest

/-- `text.replace(/\n{2,}/g, '\n')`: every maximal run of newlines becomes
a single newline (runs of length one are already single). -/
def collapseNewlines (s : List Char) : List Char :=
  collapseNlGo false s

/-- `trim()` (both ends, JS whitespace). -/
def trimBoth (s : List Char) : List Char :=
  ((s.dropWhile isWs).reverse.dropWhile isWs).reverse

/-- Does `s` start with `pat`? -/
def startsWithSeq : List Char → List Char → Bool
  | [], _ => true
  | _ :: _, [] => false
  | p :: ps, c :: cs => p = c && startsWithSeq ps cs

/-- `String.includes`: does `s` contain `pat` as a contiguous substring? -/
def containsSeq (pat : List Char) : List Char → Bool
  | [] => startsWithSeq pat []
  | c :: cs => startsWithSeq pat (c :: cs) || containsSeq pat cs

/-- Case-insensitive `startsWithSeq` (the `/i` regex flag /
`toLowerCase()`). -/
def startsWithCI : List Char → List Char → Bool
  | [], _ => true
  | _ :: _, [] => false
  | p :: ps, c :: cs => (p.toLower = c.toLower) && startsWithCI ps cs

/-- The character class `[ivxlcdm]` with the `/i` flag. -/
def isRomanCI (c : Char) : Bool :=
  let l := c.toLower
  l = 'i' || l = 'v' || l = 'x' || l = 'l' || l = 'c' || l = 'd' || l = 'm'

/-- A non-empty all-digit or all-roman token (the capture
`(\d+|[ivxlcdm]+)` extending to the end of the line). -/
def pageTokenOk (t : List Char) : Bool :=
  decide (t ≠ []) && (t.all isDigit || t.all isRomanCI)

/-- Does the suffix starting here match `(?:- Halaman\s*)?(\d+|[ivxlcdm]+)$`? -/
def pageMatchAt (t : List Char) : Bool :=
  (startsWithCI "- Halaman".data t && pageTokenOk ((t.drop 9).dropWhile isWs)) ||
    pageTokenOk t

/-- The captured page-number token of a successful `pageMatchAt`. -/
def pageCapture (t : List Char) : List Char :=
  if startsWithCI "- Halaman".data t && pageTokenOk ((t.drop 9).dropWhile isWs) then
    (t.drop 9).dropWhile isWs
  else t

/-- `trimmedLine.match(/(?:- Halaman\s*)?(\d+|[ivxlcdm]+)$/i)`: leftmost
start index of a match together with the captured token. -/
def pageScan : List Char → ℕ → Option (ℕ × List Char)
  | [], _ => none
  | c :: rest, i =>
      if pageMatchAt (c :: rest) then some (i, pageCapture (c :: rest))
      else pageScan rest (i + 1)

/-- The `replace` that removes a trailing `- Halaman` followed by optional
whitespace at the end of the string (case sensitive). -/
def stripHalamanSuffix (s : List Char) : List Char :=
  let r := s.reverse.dropWhile isWs
  if startsWithSeq "- Halaman".data.reverse r then (r.drop 9).reverse else s

/-- `/^Bab\s+\d+/i` as a prefix test. -/
def babTest (t : List Char) : Bool :=
  startsWithCI "Bab".data t &&
    (let r := t.drop 3
     decide (r.takeWhile isWs ≠ []) &&
       (match r.dropWhile isWs with
        | c :: _ => isDigit c
        | [] => false))

/-- `/^\d+\.\d+/` as a prefix test. -/
def subChapterTest (t : List Char) : Bool :=
  decide (t.takeWhile isDigit ≠ []) &&
    (match t.dropWhile isDigit with
     | '.' :: c :: _ => isDigit c
     | _ => false)

/-- `content.split(/\s+(.+)/)` followed by the source's
`[p, ...titleParts]` destructuring and `titleParts.join(' ').trim()`:
the part before the first whitespace run, and the trimmed remainder after
it.  (`content` is always already trimmed where the source calls this.) -/
def splitTitle (s : List Char) : List Char × List Char :=
  let before := s.takeWhile (fun c => !isWs c)
  let rest := s.dropWhile (fun c => !isWs c)
  if rest = [] then (s, [])
  else (before, trimBoth (rest.dropWhile isWs))

/-- `'left' | 'center' | 'right' | 'justify'`. -/
inductive Align where
  | left
  | center
  | right
  | justify
deriving DecidableEq

/-- The `PDFMarkdownOptions` interface (the font family never influences
behaviour and is omitted). -/
structure PDFMarkdownOptions where
  maxWidth : ℚ
  align : Align
  fontSize : ℚ
  lineHeight : ℚ
deriving DecidableEq

/-- The drawing part of one `formatPDFTableOfContents` entry: the optional
prefix, the title at a fixed offset of 15 units, the dotted leader (dot
pitch `dotWidth + 2`, count the floor of the gap divided by the pitch) and
the right-aligned page number at the fixed column
`pageWidth - marginRight - pageNumberWidth`. -/
def tocRender (m : Meas) (pageWidth x y : ℚ) (doc1 : DocSt) (indent : ℚ)
    (pfx title pageNumber : List Char) : DocSt :=
  let startX := x + indent
  let doc2 :=
    if pfx ≠ [] then
      docText (docText doc1 pfx startX y false) title (startX + 15) y false
    else docText doc1 title startX y false
  let titleWidth :=
    if pfx ≠ [] then strW m doc2.v (pfx ++ "  ".data ++ title)
    else strW m doc2.v title
  let dotsStart := startX + titleWidth + 5
  let dotsEnd := pageWidth - 20 - 10
  let dotWidth := m '.' doc2.v
  let numberOfDots : ℤ := ⌊(dotsEnd - dotsStart) / (dotWidth + 2)⌋
  let doc3 := { doc2 with v := Variant.normal }
  let doc4 :=
    (List.range numberOfDots.toNat).foldl
      (fun (d : DocSt) (i : ℕ) =>
        docText d ".".data (dotsStart + (i : ℚ) * (dotWidth + 2)) y false)
      doc3
  docText doc4 pageNumber (pageWidth - 20 - 10) y true

/-- One line of `formatPDFTableOfContents`. -/
def tocLineStep (m : Meas) (pageWidth x lineHeight : ℚ)
    (s : ℚ × DocSt) (rawLine : List Char) : ℚ × DocSt :=
  let y := s.1
  let doc := s.2
  let t := trimBoth rawLine
  if t = [] then (y + lineHeight, doc)
  else
    let pm := pageScan t 0
    let pageNumber := match pm with | some p => p.2 | none => []
    let content0 := match pm with | some p => trimBoth (t.take p.1) | none => t
    let content := trimBoth (stripHalamanSuffix content0)
    let kp := startsWithCI "kata pengantar".data content
    let bab := babTest content
    let sub := subChapterTest content
    let doc1 : DocSt :=
      if kp || bab then { doc with v := Variant.bold }
      else { doc with v := Variant.normal }
    let indent : ℚ := if !kp && !bab && sub then 10 else 0
    let pt : List Char × List Char :=
      if kp then ([], content)
      else if bab then splitTitle content
      else if sub then splitTitle content
      else ([], content)
    let y1 := y + lineHeight
    if babTest content then
      (y1 + lineHeight * (1 / 2),
        tocRender m pageWidth x y doc1 indent pt.1 pt.2 pageNumber)
    else (y1, tocRender m pageWidth x y doc1 indent pt.1 pt.2 pageNumber)

/-- `formatPDFTableOfContents` of the source. -/
def formatPDFTableOfContents (m : Meas) (pageWidth : ℚ) (doc : DocSt)
    (text : List Char) (x y : ℚ) (o : PDFMarkdownOptions) : ℚ × DocSt :=
  let lineHeight := o.fontSize * (352778 / 1000000) * o.lineHeight
  (splitOnNl text).foldl (tocLineStep m pageWidth x lineHeight) (y, doc)

/-- `^(#{1,6})\s+(.+)$` on the trimmed line: heading level and body
(including the regex's backtracking when the body would be empty). -/
def headerMatch (line : List Char) : Option (ℕ × List Char) :=
  let k := (line.takeWhile (fun c => c = '#')).length
  let rest := line.drop k
  if 1 ≤ k ∧ k ≤ 6 then
    let w := rest.takeWhile isWs
    let c := rest.dropWhile isWs
    if w = [] then none
    else if c ≠ [] then some (k, c)
    else if 2 ≤ w.length then some (k, [w.getLastD ' '])
    else none
  else none

/-- `^(\d+)\.\s+(.+)$` on the trimmed line. -/
def orderedListMatch (line : List Char) : Option (List Char × List Char) :=
  let d := line.takeWhile isDigit
  let rest := line.drop d.length
  if d = [] then none
  else
    match rest with
    | '.' :: r =>
        let w := r.takeWhile isWs
        let c := r.dropWhile isWs
        if w = [] then none
        else if c ≠ [] then some (d, c)
        else if 2 ≤ w.length then some (d, [w.getLastD ' '])
        else none
    | _ => none

/-- `^[-*]\s+(.+)$` on the trimmed line. -/
def unorderedListMatch (line : List Char) : Option (List Char) :=
  match line with
  | c :: r =>
      if c = '-' || c = '*' then
        let w := r.takeWhile isWs
        let cc := r.dropWhile isWs
        if w = [] then none
        else if cc ≠ [] then some cc
        else if 2 ≤ w.length then some [w.getLastD ' ']
        else none
      else none
  | [] => none

/-- The page-break guard repeated throughout `parsePDFMarkdown`:
`if (currentY + lineHeight > maxY) currentY = addNewPage()` where
`addNewPage` adds a page and returns `marginTop + options.fontSize`. -/
def ensureRoom (fontSize lineHeight maxY : ℚ) (s : ℚ × DocSt) : ℚ × DocSt :=
  if s.1 + lineHeight > maxY then
    (20 + fontSize, { s.2 with page := s.2.page + 1 })
  else s

/-- The non-justified draw loop shared by all branches of
`parsePDFMarkdown`: `applyStyle(doc, seg.style, options.fontSize)` then
`doc.text`, advancing by the measured width. -/
def drawSegs (m : Meas) (base : ℚ) (segs : List TextSegment) (x0 y : ℚ)
    (doc : DocSt) : DocSt :=
  (segs.foldl
    (fun (t : DocSt × ℚ) seg =>
      let d1 := applyStyle t.1 seg.style base
      (docText d1 seg.text t.2 y false, t.2 + strW m (variantOf seg.style) seg.text))
    (doc, x0)).1

/-- One wrapped output line of a paragraph-like branch: page-break guard,
horizontal offset for the alignment mode, then justified or plain
rendering.  `xLeft` is the left-aligned x, `availForCenter` the width the
centring formula uses, `mwJ` the width handed to `renderJustifiedLine`,
`xRight` the right-aligned x before subtracting the line width. -/
def renderWrapped (m : Meas) (o : PDFMarkdownOptions)
    (lineHeight maxY xLeft xCenterBase availForCenter mwJ xRight : ℚ)
    (total : ℕ) (s : ℚ × DocSt) (iline : ℕ × List TextSegment) : ℚ × DocSt :=
  let y := (ensureRoom o.fontSize lineHeight maxY s).1
  let doc := (ensureRoom o.fontSize lineHeight maxY s).2
  let lineSegs := iline.2
  if o.align = Align.justify then
    let d := (renderJustifiedLine m doc lineSegs xLeft y mwJ
      (decide (iline.1 = total - 1))).1
    (y + lineHeight, d)
  else
    let totalWidth := lineW m lineSegs
    let x0 :=
      if o.align = Align.center then xCenterBase + (availForCenter - totalWidth) / 2
      else if o.align = Align.right then xRight - totalWidth
      else xLeft
    (y + lineHeight, drawSegs m o.fontSize lineSegs x0 y doc)

/-- One raw input line of the normal (non-ToC) flow of
`parsePDFMarkdown`. -/
def parseLineStep (m : Meas) (x lineHeight maxY : ℚ)
    (o : PDFMarkdownOptions) (s : ℚ × DocSt) (rawLine : List Char) :
    ℚ × DocSt :=
  let baseIndentation := calculateIndentation rawLine
  let line := trimBoth rawLine
  if line = [] then
    let y1 := s.1 + lineHeight
    if y1 > maxY then (20 + o.fontSize, { s.2 with page := s.2.page + 1 })
    else (y1, s.2)
  else
    match headerMatch line with
    | some kc =>
        let s1 := ensureRoom o.fontSize lineHeight maxY s
        let doc1 : DocSt :=
          { s1.2 with sz := o.fontSize * (5 / 2 - (kc.1 : ℚ) * (3 / 10)), v := Variant.bold }
        let segments := parseInlineMarkdown kc.2
        let res := splitTextToLinesSt m doc1.v doc1.sz segments o.maxWidth baseIndentation
        let doc2 := { doc1 with v := res.2 }
        let xLeft := x + baseIndentation * o.fontSize
        let s2 :=
          res.1.enum.foldl
            (renderWrapped m o lineHeight maxY xLeft x o.maxWidth
              (o.maxWidth - baseIndentation * o.fontSize) (x + o.maxWidth)
              res.1.length)
            (s1.1, doc2)
        -- note the centring formula of this branch uses x, not xLeft
        (s2.1, { s2.2 with sz := o.fontSize, v := Variant.normal })
    | none =>
    match orderedListMatch line with
    | some nc =>
        let s1 := ensureRoom o.fontSize lineHeight maxY s
        let listIndent := baseIndentation * o.fontSize
        let doc1 := docText s1.2 (nc.1 ++ ['.']) (x + listIndent) s1.1 false
        let segments := parseInlineMarkdown nc.2
        let res := splitTextToLinesSt m doc1.v doc1.sz segments
          (o.maxWidth - (listIndent + 5)) baseIndentation
        let doc2 := { doc1 with v := res.2 }
        res.1.enum.foldl
          (renderWrapped m o lineHeight maxY (x + listIndent + 5)
            (x + listIndent + 5) (o.maxWidth - listIndent - 5)
            (o.maxWidth - (listIndent + 5)) (x + o.maxWidth) res.1.length)
          (s1.1, doc2)
    | none =>
    match unorderedListMatch line with
    | some content =>
        let s1 := ensureRoom o.fontSize lineHeight maxY s
        let listIndent := baseIndentation * o.fontSize
        let doc1 := docText s1.2 ['•'] (x + listIndent) s1.1 false
        let segments := parseInlineMarkdown content
        let res := splitTextToLinesSt m doc1.v doc1.sz segments
          (o.maxWidth - (listIndent + 5)) baseIndentation
        let doc2 := { doc1 with v := res.2 }
        res.1.enum.foldl
          (renderWrapped m o lineHeight maxY (x + listIndent + 5)
            (x + listIndent + 5) (o.maxWidth - listIndent - 5)
            (o.maxWidth - (listIndent + 5)) (x + o.maxWidth) res.1.length)
          (s1.1, doc2)
    | none =>
        let s1 := ensureRoom o.fontSize lineHeight maxY s
        let segments := parseInlineMarkdown line
        let res := splitTextToLinesSt m s1.2.v s1.2.sz segments o.maxWidth
          baseIndentation
        let doc2 := { s1.2 with v := res.2 }
        let xLeft := x + baseIndentation * o.fontSize
        res.1.enum.foldl
          (renderWrapped m o lineHeight maxY xLeft x o.maxWidth
            (o.maxWidth - baseIndentation * o.fontSize) (x + o.maxWidth)
            res.1.length)
          (s1.1, doc2)

/-- The table-of-contents routing condition of the entry point, applied to
the pre-normalized text. -/
def tocCheck (t : List Char) : Bool :=
  containsSeq "- Halaman".data t &&
    (containsSeq "Bab".data t || containsSeq "Kata Pengantar".data t)

/-- The entry point's routing decision: empty input returns early, the
normalized input is tested with `tocCheck`. -/
def parseRoutesToToC (text : List Char) : Bool :=
  if text = [] then false
  else tocCheck (collapseNewlines (replaceHr text))

/-- `parsePDFMarkdown` of the source: pre-normalization, ToC routing, then
the per-line classification loop; returns the final cursor y together
with the final document state. -/
def parsePDFMarkdown (m : Meas) (pageWidth pageHeight : ℚ) (doc : DocSt)
    (text : List Char) (x y : ℚ) (o : PDFMarkdownOptions) : ℚ × DocSt :=
  if text = [] then (y, doc)
  else
    let t1 := collapseNewlines (replaceHr text)
    if tocCheck t1 then formatPDFTableOfContents m pageWidth doc t1 x y o
    else
      let doc1 : DocSt := { doc with v := Variant.normal, sz := o.fontSize }
      let lineHeight := o.fontSize * (352778 / 1000000) * o.lineHeight
      let maxY := pageHeight - 20
      (splitOnNl t1).foldl (parseLineStep m x lineHeight maxY o) (y, doc1)



/-- A metrics instance: every character one unit wide in every variant. -/
def mOne : Meas := fun _ _ => 1

/-- A metrics instance where a bold space is ten units wide but a normal
space only one (realistic: bold glyphs are wider), and letters are ten
units wide. -/
def mBS : Meas := fun c v =>
  if c = ' ' then (if v = Variant.bold then 10 else 1) else 10

/-- The bold style produced by `parseInlineMarkdown` inside `**` markers. -/
def boldStyle : TextStyle := { plainStyle with bold := true }


/-- Claim-side description of justified drawing with no last-run
exception: each run is drawn at the running cursor, which advances by the
run's measured width plus `extra` after every space run. -/
def gapXs (m : Meas) (extra : ℚ) : ℚ → List TextSegment → List ℚ
  | _, [] => []
  | cx, s :: rest =>
      cx :: gapXs m extra
        (cx + segW m s + (if s.text = [' '] then extra else 0)) rest

/-- Final cursor of `gapXs`. -/
def gapFinal (m : Meas) (extra : ℚ) : ℚ → List TextSegment → ℚ
  | cx, [] => cx
  | cx, s :: rest =>
      gapFinal m extra (cx + segW m s + (if s.text = [' '] then extra else 0)) rest

/-- Claim-side description of the fallback drawing of
`renderJustifiedLine`: each run is drawn at the running cursor, which
advances by the measured width of the run's text followed by a space
(except for the space run itself). -/
def fallbackXs (m : Meas) : ℚ → List TextSegment → List ℚ
  | _, [] => []
  | cx, s :: rest =>
      cx :: fallbackXs m
        (cx + strW m (variantOf s.style)
          (s.text ++ (if s.text = [' '] then [] else [' ']))) rest

/-- Final cursor of `fallbackXs`. -/
def fallbackFinal (m : Meas) : ℚ → List TextSegment → ℚ
  | cx, [] => cx
  | cx, s :: rest =>
      fallbackFinal m
        (cx + strW m (variantOf s.style)
          (s.text ++ (if s.text = [' '] then [] else [' ']))) rest

/-- An initial document state for concrete scenarios. -/
def doc0 : DocSt := ⟨Variant.normal, 10, 0, []⟩

/-- The spec's description of ToC detection, applied to the normalized
input: it contains the page-label marker `- Halaman` and a chapter
marker `Bab` or the front-matter marker `Kata Pengantar`. -/
def tocDetectedSpec (t : List Char) : Prop :=
  containsSeq "- Halaman".data (collapseNewlines (replaceHr t)) = true ∧
    (containsSeq "Bab".data (collapseNewlines (replaceHr t)) = true ∨
     containsSeq "Kata Pengantar".data (collapseNewlines (replaceHr t)) = true)

/-- Two adjacent newline characters occur somewhere in the string. -/
def hasDoubleNl : List Char → Bool
  | a :: b :: rest => (a = '\n' && b = '\n') || hasDoubleNl (b :: rest)
  | _ => false


/-- Options for the heading scenario: `maxWidth 100`, left alignment,
base font size `12`, line-height factor `1`. -/
def optsHeading : PDFMarkdownOptions := ⟨100, Align.left, 12, 1⟩

/-- Options whose rendered line height is exactly `7`:
`10 * 0.352778 * (350000/176389) = 7`. -/
def optsLine7 : PDFMarkdownOptions := ⟨100, Align.left, 10, 350000 / 176389⟩

/-- A one-line table-of-contents document. -/
def tocSample : List Char := "Bab 1 A - Halaman 2".data


/-- Metrics where italic glyphs are narrow (1 unit) and everything else is
wide (10 units). -/
def mIt : Meas := fun _ v => if v = Variant.italic then 1 else 10

/-- The italic style produced by `parseInlineMarkdown` inside `*` markers. -/
def italicStyle : TextStyle := { plainStyle with italic := true }

/-- A word chunk as the breaker produces it for marker-free plain input:
non-empty, whitespace-free and marker-free. -/
def WordOK (t : List Char) : Prop :=
  t ≠ [] ∧ ∀ c ∈ t, isWs c = false ∧ isMarker c = false

/-- A word run of a broken line. -/
def isWordSeg (seg : TextSegment) : Prop :=
  seg.style = plainStyle ∧ WordOK seg.text

/-- The shape of a line built by the breaker from plain runs: word runs
alternating with single plain space runs, starting and ending with a
word run. -/
inductive AltLine : List TextSegment → Prop
  | single (s : TextSegment) (h : isWordSeg s) : AltLine [s]
  | more (s : TextSegment) (rest : List TextSegment) (h : isWordSeg s)
      (hr : AltLine rest) : AltLine (s :: ⟨[' '], plainStyle⟩ :: rest)

/-- The shape of a fragment emitted by `splitWordIfNeeded` for a plain
word, measured in the normal variant: a single character, a chunk of
width at most the cut threshold, or such a chunk with the appended
hyphen. -/
def PartShape (m : Meas) (th : ℚ) (t : List Char) : Prop :=
  (∃ c, t = [c]) ∨
  (t ≠ [] ∧ strW m Variant.normal t ≤ th) ∨
  (∃ d, t = d ++ ['-'] ∧ d ≠ [] ∧ strW m Variant.normal d ≤ th)


/-- A committed line of the word-accumulation pass for plain marker-free
input: an alternating line within budget, or a singleton fragment with
the `splitWordIfNeeded` shape. -/
def LineOK (m : Meas) (aw : ℚ) (l : List TextSegment) : Prop :=
  (AltLine l ∧ lineW m l ≤ aw) ∨
  (∃ t, l = [⟨t, plainStyle⟩] ∧ WordOK t ∧ PartShape m (aw * 95 / 100) t)

/-- The current-line state of the accumulation pass. -/
def CurOK (m : Meas) (aw : ℚ) (st : SplitSt) : Prop :=
  (st.cur = [] ∧ st.curW = 0) ∨
  (AltLine st.cur ∧ st.curW = lineW m st.cur ∧ st.curW ≤ aw) ∨
  (∃ t, st.cur = [⟨t, plainStyle⟩] ∧ WordOK t ∧
    PartShape m (aw * 95 / 100) t ∧ st.curW = lineW m st.cur)

/-- Invariant of the accumulation pass of `splitTextToLines`. -/
def MainInv (m : Meas) (aw : ℚ) (st : SplitSt) : Prop :=
  (∀ l ∈ st.committed, LineOK m aw l) ∧ CurOK m aw st

/-- A line of the final output: empty (everything was dropped by the
repair) or an alternating line within budget. -/
def OutOK (m : Meas) (aw : ℚ) (l : List TextSegment) : Prop :=
  l = [] ∨ (AltLine l ∧ lineW m l ≤ aw)

/-- The word texts of an alternating line. -/
def altWords : List TextSegment → List (List Char)
  | [] => []
  | [s] => [s.text]
  | s :: _ :: rest => s.text :: altWords rest

/-! ## Helper lemmas -/

theorem lineW_append (m : Meas) (a : List TextSegment) (s : TextSegment) :
    lineW m (a ++ [s]) = lineW m a + segW m s := by
  simp [lineW]

theorem textConcat_append (a b : List TextSegment) :
    textConcat (a ++ b) = textConcat a ++ textConcat b := by
  induction a with
  | nil => simp [textConcat]
  | cons s rest ih => simp [textConcat] at ih ⊢; simp [ih]

theorem foldlInv {α β : Type} (P : α → Prop) (f : α → β → α) :
    ∀ (l : List β) (s : α), P s → (∀ a b, P a → P (f a b)) →
      P (l.foldl f s) := by
  intro l
  induction l with
  | nil => intro s h _; exact h
  | cons b rest ih => intro s h hstep; exact ih (f s b) (hstep s b h) hstep

/-! ## C6: inline markup parsing -/

theorem textConcat_nil : textConcat [] = [] := rfl

theorem textConcat_cons (s : TextSegment) (rest : List TextSegment) :
    textConcat (s :: rest) = s.text ++ textConcat rest := rfl

theorem textConcat_flush (cur : List Char) (st : TextStyle)
    (L : List TextSegment) :
    textConcat ((if cur = [] then ([] : List TextSegment) else [⟨cur, st⟩]) ++ L)
      = cur ++ textConcat L := by
  by_cases h : cur = [] <;> simp [h, textConcat_append, textConcat_cons, textConcat_nil]

theorem textConcat_flushOnly (cur : List Char) (st : TextStyle) :
    textConcat (if cur = [] then ([] : List TextSegment) else [⟨cur, st⟩]) = cur := by
  by_cases h : cur = [] <;> simp [h, textConcat_cons, textConcat_nil]

theorem textConcat_pimGo : ∀ (s cur : List Char) (st : TextStyle),
    textConcat (pimGo s cur st) = cur ++ s.filter (fun c => !isMarker c) := by
  intro s cur st
  induction s, cur, st using pimGo.induct
  all_goals
    simp_all [pimGo, textConcat_flush, textConcat_flushOnly, textConcat_append,
      textConcat_cons, textConcat_nil]

/-- C6 (counterexample): `parseInlineMarkdown("**a** *b* c")` does not yield
the five-run sequence `[{"a",bold},{" ",plain},{"b",italic},{" ",plain},
{"c",plain}]` — the trailing `" c"` stays one plain run. -/
theorem claim_C6_counterexample :
    parseInlineMarkdown "**a** *b* c".data ≠
      [⟨"a".data, { plainStyle with bold := true }⟩,
       ⟨" ".data, plainStyle⟩,
       ⟨"b".data, { plainStyle with italic := true }⟩,
       ⟨" ".data, plainStyle⟩,
       ⟨"c".data, plainStyle⟩] := by
  decide

/-- C6 (amended): `parseInlineMarkdown("**a** *b* c")` yields exactly the
four-run sequence `[{"a",bold},{" ",plain},{"b",italic},{" c",plain}]`
(the trailing space and `c` form one plain run), and for every input the
concatenation of the produced runs' text equals the input with the
markup markers removed. -/
theorem claim_C6_amended :
    parseInlineMarkdown "**a** *b* c".data =
      [⟨"a".data, { plainStyle with bold := true }⟩,
       ⟨" ".data, plainStyle⟩,
       ⟨"b".data, { plainStyle with italic := true }⟩,
       ⟨" c".data, plainStyle⟩] ∧
    ∀ s : List Char, textConcat (parseInlineMarkdown s) =
      s.filter (fun c => !isMarker c) := by
  refine ⟨by decide, fun s => ?_⟩
  simpa using textConcat_pimGo s [] plainStyle

/-! ## C8: table-of-contents routing -/

/-- C8: `parsePDFMarkdown` routes to the ToC formatter exactly when the
normalized input contains `- Halaman` together with `Bab` or
`Kata Pengantar`; a routed input is handed unchanged (after
normalization) to `formatPDFTableOfContents`; the two example documents
of the spec are routed and not routed respectively. -/
theorem claim_C8 :
    (∀ t : List Char, parseRoutesToToC t = true ↔ tocDetectedSpec t) ∧
    (∀ (m : Meas) (pw ph : ℚ) (doc : DocSt) (t : List Char) (x y : ℚ)
        (o : PDFMarkdownOptions), parseRoutesToToC t = true →
        parsePDFMarkdown m pw ph doc t x y o =
          formatPDFTableOfContents m pw doc (collapseNewlines (replaceHr t)) x y o) ∧
    parseRoutesToToC "Bab 1 Title - Halaman 5\nKata Pengantar - Halaman 2".data
      = true ∧
    parseRoutesToToC "Bab 1 Title".data = false := by
  refine ⟨fun t => ?_, fun m pw ph doc t x y o h => ?_, by decide, by decide⟩
  · by_cases ht : t = []
    · subst ht
      simp [parseRoutesToToC, tocDetectedSpec]
      decide
    · simp [parseRoutesToToC, tocCheck, tocDetectedSpec, ht,
        Bool.and_eq_true, Bool.or_eq_true]
  · simp only [parseRoutesToToC] at h
    split at h
    · simp at h
    · simp only [parsePDFMarkdown, h, if_true]
      split
      · simp_all
      · rfl

/-! ## C9: blank-line normalization -/

theorem collapseNlGo_true_head :
    ∀ (s : List Char) (c : Char) (r : List Char),
      collapseNlGo true s = c :: r → c ≠ '\n' := by
  intro s
  induction s with
  | nil => intro c r h; simp [collapseNlGo] at h
  | cons a rest ih =>
      intro c r h
      by_cases ha : a = '\n'
      · subst ha
        simp only [collapseNlGo, if_pos rfl] at h
        exact ih c r h
      · simp only [collapseNlGo, if_neg ha] at h
        cases h
        exact ha

theorem hasDoubleNl_collapseNlGo :
    ∀ (s : List Char) (b : Bool), hasDoubleNl (collapseNlGo b s) = false := by
  intro s
  induction s with
  | nil => intro b; simp [collapseNlGo, hasDoubleNl]
  | cons a rest ih =>
      intro b
      by_cases ha : a = '\n'
      · subst ha
        cases b with
        | true => simp only [collapseNlGo, if_pos rfl]; exact ih true
        | false =>
            simp only [collapseNlGo, if_pos rfl]
            cases hr : collapseNlGo true rest with
            | nil => simp [hasDoubleNl]
            | cons c r2 =>
                have hc := collapseNlGo_true_head rest c r2 hr
                have := ih true
                rw [hr] at this
                simp [hasDoubleNl, hc, this]
      · simp only [collapseNlGo, if_neg ha]
        cases hr : collapseNlGo false rest with
        | nil => simp [hasDoubleNl]
        | cons c r2 =>
            have := ih false
            rw [hr] at this
            simp [hasDoubleNl, ha, this]

/-- C9 (counterexample): the input `"a\n\n\nb"` contains a run of two
consecutive blank lines, yet after the entry point's pre-normalization no
blank line at all remains (the run does not collapse to exactly one blank
line). -/
theorem claim_C9_counterexample :
    (splitOnNl "a\n\n\nb".data).count [] = 2 ∧
    collapseNewlines (replaceHr "a\n\n\nb".data) = "a\nb".data ∧
    (splitOnNl (collapseNewlines (replaceHr "a\n\n\nb".data))).count [] = 0 := by
  refine ⟨by decide, by decide, by decide⟩

/-- C9 (amended): the pre-normalization replaces every `---` by a newline
and collapses every run of two or more consecutive newline characters to a
single newline, so the normalized text never contains two adjacent
newlines — runs of blank lines are removed entirely, not reduced to one
blank line. -/
theorem claim_C9_amended :
    ∀ s : List Char, hasDoubleNl (collapseNewlines (replaceHr s)) = false := by
  intro s
  exact hasDoubleNl_collapseNlGo (replaceHr s) false

/-! ## C1: line-width bound -/

theorem repairPartStep_inv (m : Meas) (aw : ℚ)
    (t : List TextSegment × ℚ × Variant) (part : TextSegment)
    (h : lineW m t.1 = t.2.1 ∧ t.2.1 ≤ aw) :
    lineW m (repairPartStep m aw t part).1 = (repairPartStep m aw t part).2.1 ∧
      (repairPartStep m aw t part).2.1 ≤ aw := by
  unfold repairPartStep
  split
  next hc => exact ⟨by simp [lineW_append, h.1, segW], hc⟩
  next => exact h

theorem repairSegStep_inv (m : Meas) (sw aw : ℚ)
    (hsw : ∀ v : Variant, m ' ' v = sw)
    (s : List TextSegment × ℚ × Variant) (seg : TextSegment)
    (h : lineW m s.1 = s.2.1 ∧ s.2.1 ≤ aw) :
    lineW m (repairSegStep m sw aw s seg).1 = (repairSegStep m sw aw s seg).2.1 ∧
      (repairSegStep m sw aw s seg).2.1 ≤ aw := by
  unfold repairSegStep
  split
  next hsp =>
    split
    next hc =>
      refine ⟨?_, hc⟩
      simp [lineW_append, h.1, segW, hsp, strW, hsw]
    next => exact h
  next =>
    exact foldlInv (fun t => lineW m t.1 = t.2.1 ∧ t.2.1 ≤ aw)
      (repairPartStep m aw) _ (s.1, s.2.1, variantOf seg.style) h
      (fun a b ha => repairPartStep_inv m aw a b ha)

theorem repairLine_bound (m : Meas) (sw aw : ℚ)
    (hsw : ∀ v : Variant, m ' ' v = sw) (line : List TextSegment)
    (v0 : Variant) (h0 : 0 ≤ aw) :
    lineW m (repairLine m sw aw line v0).1 ≤ aw := by
  have h := foldlInv (fun t : List TextSegment × ℚ × Variant =>
      lineW m t.1 = t.2.1 ∧ t.2.1 ≤ aw)
    (repairSegStep m sw aw) line ([], 0, v0)
    ⟨by simp [lineW], by simpa using h0⟩
    (fun a b ha => repairSegStep_inv m sw aw hsw a b ha)
  rw [repairLine, h.1]
  exact h.2

theorem fixLine_inv (m : Meas) (sw aw : ℚ)
    (hsw : ∀ v : Variant, m ' ' v = sw) (h0 : 0 ≤ aw)
    (s : List (List TextSegment) × Variant) (line : List TextSegment)
    (h : ∀ l ∈ s.1, lineW m l ≤ aw) :
    ∀ l ∈ (fixLine m sw aw s line).1, lineW m l ≤ aw := by
  intro l hl
  unfold fixLine at hl
  by_cases hw : lineW m line > aw
  · rw [if_pos hw] at hl
    rcases List.mem_append.1 hl with h1 | h2
    · exact h l h1
    · rw [List.mem_singleton.1 h2]
      exact repairLine_bound m sw aw hsw line _ h0
  · rw [if_neg hw] at hl
    rcases List.mem_append.1 hl with h1 | h2
    · exact h l h1
    · rw [List.mem_singleton.1 h2]
      exact le_of_not_lt hw

/-- C1 (amended): whenever the available width
`maxWidth - baseIndentation * fontSize` is non-negative and the metrics
give the space character the same width under every font variant (the
post-pass accounts every kept space at the fixed entry `spaceWidth`),
every line returned by `splitTextToLines` has total measured width at
most the available width — without any single-character exception, since
the width-repair pass drops fragments that do not fit. -/
theorem claim_C1_amended (m : Meas) (v0 : Variant) (fsz : ℚ)
    (segments : List TextSegment) (maxWidth baseIndentation : ℚ)
    (haw : 0 ≤ maxWidth - baseIndentation * fsz)
    (hsp : ∀ v : Variant, m ' ' v = m ' ' v0) :
    ∀ line ∈ splitTextToLines m v0 fsz segments maxWidth baseIndentation,
      lineW m line ≤ maxWidth - baseIndentation * fsz := by
  intro line hline
  unfold splitTextToLines splitTextToLinesSt at hline
  exact foldlInv
    (fun s : List (List TextSegment) × Variant =>
      ∀ l ∈ s.1, lineW m l ≤ maxWidth - baseIndentation * fsz)
    (fixLine m (m ' ' v0) (maxWidth - baseIndentation * fsz)) _ _
    (by simp)
    (fun a b ha => fixLine_inv m (m ' ' v0) (maxWidth - baseIndentation * fsz)
      hsp haw a b ha)
    line hline

/-- C1 (witness for the amended theorem), at the one-segment input
`"ab"` with unit metrics, available width `100 - 0 * 10 = 100`. -/
theorem claim_C1_witness :
    lineW mOne [⟨"ab".data, plainStyle⟩] ≤ 100 - 0 * 10 :=
  claim_C1_amended mOne Variant.normal 10 [⟨"ab".data, plainStyle⟩] 100 0
    (by norm_num) (fun _ => rfl) [⟨"ab".data, plainStyle⟩]
    (by norm_num +decide [splitTextToLines, splitTextToLinesSt, splitSegStep,
      splitWordStep, commitLine, fixLine, repairLine, splitWordIfNeeded, swinGo,
      strW, segW, lineW, wordsOf, wordsGo, variantOf, plainStyle, mOne, isWs])

/-- C1 (counterexample): with metrics where a bold space is wider than a
normal one, `splitTextToLines` (entered with a normal font) returns a
three-run, three-character line of measured width `30`, exceeding the
available width `21 - 0 * 10 = 21` — the claimed bound fails on a line
that is not a single character. -/
theorem claim_C1_counterexample :
    splitTextToLines mBS Variant.normal 10 [⟨"a b".data, boldStyle⟩] 21 0 =
      [[⟨"a".data, boldStyle⟩, ⟨" ".data, boldStyle⟩, ⟨"b".data, boldStyle⟩]] ∧
    lineW mBS
      [⟨"a".data, boldStyle⟩, ⟨" ".data, boldStyle⟩, ⟨"b".data, boldStyle⟩] = 30 ∧
    ¬(lineW mBS
        [⟨"a".data, boldStyle⟩, ⟨" ".data, boldStyle⟩, ⟨"b".data, boldStyle⟩]
      ≤ 21 - 0 * 10) ∧
    (textConcat
      [⟨"a".data, boldStyle⟩, ⟨" ".data, boldStyle⟩, ⟨"b".data, boldStyle⟩]).length
      = 3 := by
  refine ⟨?_, ?_, ?_, by decide⟩
  · norm_num +decide [splitTextToLines, splitTextToLinesSt, splitSegStep,
      splitWordStep, commitLine, fixLine, repairLine, repairSegStep,
      repairPartStep, splitWordIfNeeded, swinGo, strW, segW, lineW, wordsOf,
      wordsGo, variantOf, plainStyle, boldStyle, mBS, isWs]
  · norm_num [lineW, segW, strW, variantOf, boldStyle, plainStyle, mBS]
  · norm_num [lineW, segW, strW, variantOf, boldStyle, plainStyle, mBS]

/-! ## C3, C4: justified rendering -/

theorem measureFold_draws (doc : DocSt) (segs : List TextSegment) :
    (segs.foldl (fun d seg => applyStyle d seg.style d.sz) doc).draws = doc.draws := by
  induction segs generalizing doc with
  | nil => rfl
  | cons s rest ih => rw [List.foldl_cons, ih]; rfl

theorem justFold_spec (m : Meas) (y extra : ℚ) (n : ℕ) :
    ∀ (tail : List TextSegment) (i : ℕ) (doc : DocSt) (cx : ℚ),
      i + tail.length = n →
      (∀ s1, tail.getLast? = some s1 → s1.text ≠ [' ']) →
      ((List.enumFrom i tail).foldl (justSegStep m y extra n) (doc, cx)).2 =
          gapFinal m extra cx tail ∧
        ((List.enumFrom i tail).foldl (justSegStep m y extra n) (doc, cx)).1.draws.map
            (fun d => d.x) =
          doc.draws.map (fun d => d.x) ++ gapXs m extra cx tail := by
  intro tail
  induction tail with
  | nil =>
      intro i doc cx _ _
      simp [List.enumFrom, gapFinal, gapXs]
  | cons s rest ih =>
      intro i doc cx hn hlast
      rw [List.enumFrom_cons]
      cases rest with
      | nil =>
          have hs : s.text ≠ [' '] := hlast s rfl
          simp only [List.foldl_cons, List.enumFrom, List.foldl_nil]
          constructor
          · simp [justSegStep, hs, gapFinal, applyStyle, docText]
          · simp [justSegStep, hs, gapXs, gapFinal, applyStyle, docText]
      | cons r rest2 =>
          have hi : i < n - 1 := by
            simp only [List.length_cons] at hn
            omega
          have hlast2 : ∀ s1, (r :: rest2).getLast? = some s1 → s1.text ≠ [' '] := by
            intro s1 h1
            exact hlast s1 (by rw [List.getLast?_cons_cons]; exact h1)
          simp only [List.foldl_cons]
          by_cases hs : s.text = [' ']
          · have hstep : justSegStep m y extra n (doc, cx) (i, s) =
                (docText (applyStyle doc s.style doc.sz) s.text cx y false,
                  cx + segW m s + extra) := by
              simp [justSegStep, hs, hi]
            rw [hstep]
            have hrec := ih (i + 1)
              (docText (applyStyle doc s.style doc.sz) s.text cx y false)
              (cx + segW m s + extra) (by simp only [List.length_cons] at hn ⊢; omega)
              hlast2
            refine ⟨?_, ?_⟩
            · rw [hrec.1]; simp [gapFinal, hs]
            · rw [hrec.2]; simp [gapXs, hs, docText, applyStyle]
          · have hstep : justSegStep m y extra n (doc, cx) (i, s) =
                (docText (applyStyle doc s.style doc.sz) s.text cx y false,
                  cx + segW m s) := by
              simp [justSegStep, hs]
            rw [hstep]
            have hrec := ih (i + 1)
              (docText (applyStyle doc s.style doc.sz) s.text cx y false)
              (cx + segW m s) (by simp only [List.length_cons] at hn ⊢; omega)
              hlast2
            refine ⟨?_, ?_⟩
            · rw [hrec.1]; simp [gapFinal, hs]
            · rw [hrec.2]; simp [gapXs, hs, docText, applyStyle]

theorem gapFinal_eq (m : Meas) (extra : ℚ) :
    ∀ (l : List TextSegment) (cx : ℚ),
      gapFinal m extra cx l =
        cx + lineW m l + (l.countP (fun s => s.text = [' '])) * extra := by
  intro l
  induction l with
  | nil => intro cx; simp [gapFinal, lineW]
  | cons s rest ih =>
      intro cx
      by_cases hs : s.text = [' ']
      · simp only [gapFinal, hs, if_pos rfl, ih, lineW, List.countP_cons,
          List.map_cons, List.sum_cons]
        push_cast
        simp [segW, hs]
        ring
      · simp only [gapFinal, if_neg hs, ih, lineW, List.countP_cons,
          List.map_cons, List.sum_cons]
        simp [hs, segW]
        ring

/-- C3 (amended): for a justified non-last line with more than one run,
at least one space-gap run, a final run that is not a space run, and
total measured text width below `maxWidth`, `renderJustifiedLine` draws
each run at a cursor that advances by the run's measured width plus
exactly `S/N` after every space run (`S = maxWidth - totalTextWidth`,
`N` the number of space runs), and the final cursor lands exactly at
`x + maxWidth`. -/
theorem claim_C3_amended (m : Meas) (doc : DocSt) (segs : List TextSegment)
    (x y mw : ℚ)
    (hlen : 1 < segs.length)
    (hN : 0 < (segs.filter (fun s => s.text = [' '])).length)
    (hlast : ∀ s1, segs.getLast? = some s1 → s1.text ≠ [' '])
    (htot : lineW m segs < mw) :
    (renderJustifiedLine m doc segs x y mw false).2 = x + mw ∧
    ((renderJustifiedLine m doc segs x y mw false).1.draws.map (fun d => d.x)) =
      doc.draws.map (fun d => d.x) ++
        gapXs m ((mw - lineW m segs) /
            ((segs.filter (fun s => s.text = [' '])).length : ℚ)) x segs := by
  have hb : (false || decide (segs.length ≤ 1)) = false := by
    simp; omega
  have hmax : max 0 (mw - lineW m segs) = mw - lineW m segs :=
    max_eq_right (by linarith)
  have hextra :
      (if (segs.filter (fun s => s.text = [' '])).length > 0 then
          max 0 (mw - lineW m segs) /
            ((segs.filter (fun s => s.text = [' '])).length : ℚ)
        else 0) =
        (mw - lineW m segs) /
          ((segs.filter (fun s => s.text = [' '])).length : ℚ) := by
    rw [if_pos hN, hmax]
  have hfold := justFold_spec m y
    ((mw - lineW m segs) / ((segs.filter (fun s => s.text = [' '])).length : ℚ))
    segs.length segs 0
    (segs.foldl (fun d seg => applyStyle d seg.style d.sz) doc) x
    (by simp) hlast
  constructor
  · show (renderJustifiedLine m doc segs x y mw false).2 = x + mw
    unfold renderJustifiedLine
    rw [hb]
    simp only [Bool.false_eq_true, if_false, hextra, List.enum]
    rw [hfold.1, gapFinal_eq]
    have hNq : ((segs.filter (fun s => s.text = [' '])).length : ℚ) ≠ 0 := by
      exact_mod_cast Nat.pos_iff_ne_zero.mp hN
    rw [List.countP_eq_length_filter]
    field_simp
  · unfold renderJustifiedLine
    rw [hb]
    simp only [Bool.false_eq_true, if_false, hextra, List.enum]
    rw [hfold.2, measureFold_draws]

/-- C3 (witness for the amended theorem): the justified non-last line
`"a" " " "b"` with unit metrics and `maxWidth = 10` ends exactly at
`0 + 10` and its draw cursor follows the `S/N`-stretched positions. -/
theorem claim_C3_witness :
    (renderJustifiedLine mOne doc0
        [⟨"a".data, plainStyle⟩, ⟨" ".data, plainStyle⟩, ⟨"b".data, plainStyle⟩]
        0 0 10 false).2 = 0 + 10 ∧
    ((renderJustifiedLine mOne doc0
        [⟨"a".data, plainStyle⟩, ⟨" ".data, plainStyle⟩, ⟨"b".data, plainStyle⟩]
        0 0 10 false).1.draws.map (fun d => d.x)) =
      doc0.draws.map (fun d => d.x) ++
        gapXs mOne
          ((10 - lineW mOne
              [⟨"a".data, plainStyle⟩, ⟨" ".data, plainStyle⟩, ⟨"b".data, plainStyle⟩]) /
            ((([⟨"a".data, plainStyle⟩, ⟨" ".data, plainStyle⟩,
               ⟨"b".data, plainStyle⟩] : List TextSegment).filter
                (fun s => s.text = [' '])).length : ℚ))
          0
          [⟨"a".data, plainStyle⟩, ⟨" ".data, plainStyle⟩, ⟨"b".data, plainStyle⟩] :=
  claim_C3_amended mOne doc0
    [⟨"a".data, plainStyle⟩, ⟨" ".data, plainStyle⟩, ⟨"b".data, plainStyle⟩]
    0 0 10 (by decide) (by decide)
    (by intro s1 h1; simp [List.getLast?] at h1; subst h1; decide)
    (by norm_num [lineW, segW, strW, variantOf, plainStyle, mOne])

/-- C3 (counterexample): a justified non-last line with two runs whose
final run is the space gap: the trailing space run gets no extra advance
(the source skips the gap at the last index), so the total advance is
`2`, not `x + maxWidth = 10`, although the claim's premises (more than
one run, one space-gap run, total text width below `maxWidth`) hold. -/
theorem claim_C3_counterexample :
    (renderJustifiedLine mOne doc0
        [⟨"a".data, plainStyle⟩, ⟨" ".data, plainStyle⟩] 0 0 10 false).2 = 2 ∧
    ¬((renderJustifiedLine mOne doc0
        [⟨"a".data, plainStyle⟩, ⟨" ".data, plainStyle⟩] 0 0 10 false).2 = 0 + 10) ∧
    lineW mOne [⟨"a".data, plainStyle⟩, ⟨" ".data, plainStyle⟩] < 10 ∧
    (([⟨"a".data, plainStyle⟩, ⟨" ".data, plainStyle⟩] : List TextSegment).filter
        (fun s => s.text = [' '])).length = 1 := by
  have h2 : (renderJustifiedLine mOne doc0
      [⟨"a".data, plainStyle⟩, ⟨" ".data, plainStyle⟩] 0 0 10 false).2 = 2 := by
    norm_num +decide [renderJustifiedLine, justSegStep, applyStyle, docText,
      List.enum, List.enumFrom, segW, strW, lineW, variantOf, plainStyle, mOne,
      doc0]
  refine ⟨h2, by rw [h2]; norm_num, ?_, by decide⟩
  norm_num [lineW, segW, strW, variantOf, plainStyle, mOne]

theorem fallbackFold_spec (m : Meas) (y : ℚ) :
    ∀ (l : List TextSegment) (doc : DocSt) (cx : ℚ),
      (l.foldl (fallbackSegStep m y) (doc, cx)).2 = fallbackFinal m cx l ∧
        (l.foldl (fallbackSegStep m y) (doc, cx)).1.draws.map (fun d => d.x) =
          doc.draws.map (fun d => d.x) ++ fallbackXs m cx l := by
  intro l
  induction l with
  | nil => intro doc cx; simp [fallbackFinal, fallbackXs]
  | cons s rest ih =>
      intro doc cx
      simp only [List.foldl_cons]
      have hstep : fallbackSegStep m y (doc, cx) s =
          (docText (applyStyle doc s.style doc.sz) s.text cx y false,
            cx + strW m (variantOf s.style)
              (s.text ++ (if s.text = [' '] then [] else [' ']))) := by
        simp [fallbackSegStep, applyStyle, docText]
      rw [hstep]
      have hrec := ih (docText (applyStyle doc s.style doc.sz) s.text cx y false)
        (cx + strW m (variantOf s.style)
          (s.text ++ (if s.text = [' '] then [] else [' '])))
      refine ⟨?_, ?_⟩
      · rw [hrec.1]; simp [fallbackFinal]
      · rw [hrec.2]; simp [fallbackXs, docText, applyStyle]

/-- C4 (amended): for the paragraph's final line (and any line with at
most one run) `renderJustifiedLine` falls back to non-stretched drawing
that is independent of `maxWidth` — but each non-space run advances the
cursor by the measured width of its text followed by one space, not by
its own measured width alone, so the fallback is not identical to the
left-aligned drawing loop. -/
theorem claim_C4_amended (m : Meas) (doc : DocSt) (segs : List TextSegment)
    (x y mw mw2 : ℚ) (isL : Bool) (h : isL = true ∨ segs.length ≤ 1) :
    renderJustifiedLine m doc segs x y mw isL =
      renderJustifiedLine m doc segs x y mw2 isL ∧
    ((renderJustifiedLine m doc segs x y mw isL).1.draws.map (fun d => d.x)) =
      doc.draws.map (fun d => d.x) ++ fallbackXs m x segs ∧
    (renderJustifiedLine m doc segs x y mw isL).2 = fallbackFinal m x segs := by
  have hb : (isL || decide (segs.length ≤ 1)) = true := by
    rcases h with h | h
    · simp [h]
    · simp [h]
  unfold renderJustifiedLine
  rw [hb]
  simp only [if_pos rfl]
  exact ⟨rfl, (fallbackFold_spec m y segs doc x).2, (fallbackFold_spec m y segs doc x).1⟩

/-- C4 (witness for the amended theorem): instantiation at a two-run last
line with unit metrics; the fallback positions are `[0, 2]` (one unit of
text width plus one appended space width per non-space run). -/
theorem claim_C4_witness :
    renderJustifiedLine mOne doc0
        [⟨"a".data, plainStyle⟩, ⟨"b".data, plainStyle⟩] 0 0 50 true =
      renderJustifiedLine mOne doc0
        [⟨"a".data, plainStyle⟩, ⟨"b".data, plainStyle⟩] 0 0 7 true ∧
    ((renderJustifiedLine mOne doc0
        [⟨"a".data, plainStyle⟩, ⟨"b".data, plainStyle⟩] 0 0 50 true).1.draws.map
          (fun d => d.x)) =
      doc0.draws.map (fun d => d.x) ++
        fallbackXs mOne 0 [⟨"a".data, plainStyle⟩, ⟨"b".data, plainStyle⟩] ∧
    (renderJustifiedLine mOne doc0
        [⟨"a".data, plainStyle⟩, ⟨"b".data, plainStyle⟩] 0 0 50 true).2 =
      fallbackFinal mOne 0 [⟨"a".data, plainStyle⟩, ⟨"b".data, plainStyle⟩] :=
  claim_C4_amended mOne doc0 [⟨"a".data, plainStyle⟩, ⟨"b".data, plainStyle⟩]
    0 0 50 7 true (Or.inl rfl)

/-- C4 (counterexample): on the last line `"a" "b"` with unit metrics the
fallback draws the second run at `x = 2` while the left-aligned drawing
loop of the page flow controller draws it at `x = 1`; the advance is the
run's width plus a space width, not "its own measured width", and the
rendering is not identical to left-aligned drawing. -/
theorem claim_C4_counterexample :
    ((renderJustifiedLine mOne doc0
        [⟨"a".data, plainStyle⟩, ⟨"b".data, plainStyle⟩] 0 0 50 true).1.draws.map
          (fun d => d.x)) = [0, 2] ∧
    ((drawSegs mOne 10 [⟨"a".data, plainStyle⟩, ⟨"b".data, plainStyle⟩]
        0 0 doc0).draws.map (fun d => d.x)) = [0, 1] ∧
    ([0, 2] : List ℚ) ≠ [0, 1] := by
  refine ⟨?_, ?_, by norm_num⟩
  · norm_num +decide [renderJustifiedLine, fallbackSegStep, applyStyle, docText,
      strW, variantOf, plainStyle, mOne, doc0]
  · norm_num +decide [drawSegs, applyStyle, docText, strW, variantOf,
      plainStyle, mOne, doc0]

/-! ## C5: heading rendering -/

/-- C5: the heading line `"# H"` is matched at level 1 and the branch sets
the scaled bold font, but the per-segment `applyStyle(segment.style,
options.fontSize)` executed right before `doc.text` overrides it: the
heading body is drawn in the normal variant at the base font size `12`,
not in bold at `12 * (2.5 - 1*0.3) = 26.4` as the spec states. -/
theorem claim_C5_theorem :
    ((parsePDFMarkdown mOne 210 297 doc0 "# H".data 0 30 optsHeading).2.draws.map
      (fun d => (d.text, d.v, d.sz))) = [("H".data, Variant.normal, 12)] ∧
    Variant.normal ≠ Variant.bold ∧
    (12 : ℚ) ≠ 12 * (5 / 2 - 1 * (3 / 10)) := by
  refine ⟨?_, by decide, by norm_num⟩
  norm_num +decide [parsePDFMarkdown, tocCheck, containsSeq, startsWithSeq,
    collapseNewlines, collapseNlGo, replaceHr, splitOnNl, splitOnNlGo,
    parseLineStep, calculateIndentation, trimBoth, isWs, isDigit, headerMatch,
    ensureRoom, parseInlineMarkdown, pimGo, isMarker, splitTextToLinesSt,
    splitSegStep, splitWordStep, commitLine, splitWordIfNeeded, swinGo, fixLine,
    repairLine, repairSegStep, repairPartStep, wordsOf, wordsGo, strW, segW,
    lineW, variantOf, headingSize, plainStyle, renderWrapped,
    renderJustifiedLine, justSegStep, fallbackSegStep, drawSegs, applyStyle,
    docText, List.enum, List.enumFrom, mOne, doc0, optsHeading,
    orderedListMatch, unorderedListMatch]

/-! ## C2: page-break behaviour -/

theorem ensureRoom_y (fs lh maxY : ℚ) (s : ℚ × DocSt) :
    (ensureRoom fs lh maxY s).1 + lh ≤ maxY ∨ (ensureRoom fs lh maxY s).1 = 20 + fs := by
  unfold ensureRoom
  split
  · right; rfl
  · left; linarith [not_lt.mp (by assumption : ¬s.1 + lh > maxY)]

theorem ensureRoom_draws (fs lh maxY : ℚ) (s : ℚ × DocSt) :
    (ensureRoom fs lh maxY s).2.draws = s.2.draws := by
  unfold ensureRoom
  split <;> rfl

theorem docText_mem (doc : DocSt) (t : List Char) (x y : ℚ) (b : Bool)
    (d : DrawCmd) (hd : d ∈ (docText doc t x y b).draws) :
    d ∈ doc.draws ∨ d.y = y := by
  simp only [docText, List.mem_append, List.mem_singleton] at hd
  rcases hd with h | h
  · exact Or.inl h
  · right; rw [h]

theorem drawSegs_mem (m : Meas) (base : ℚ) (segs : List TextSegment)
    (x0 y : ℚ) (doc : DocSt) (d : DrawCmd)
    (hd : d ∈ (drawSegs m base segs x0 y doc).draws) :
    d ∈ doc.draws ∨ d.y = y := by
  unfold drawSegs at hd
  refine foldlInv
    (fun t : DocSt × ℚ => d ∈ t.1.draws → d ∈ doc.draws ∨ d.y = y)
    _ segs (doc, x0) (fun h => Or.inl h) ?_ hd
  intro a seg ha hmem
  rcases docText_mem _ _ _ _ _ _ hmem with h | h
  · exact ha (by simpa [applyStyle] using h)
  · exact Or.inr h

theorem renderJustifiedLine_mem (m : Meas) (doc : DocSt)
    (segs : List TextSegment) (x y mw : ℚ) (b : Bool) (d : DrawCmd)
    (hd : d ∈ (renderJustifiedLine m doc segs x y mw b).1.draws) :
    d ∈ doc.draws ∨ d.y = y := by
  unfold renderJustifiedLine at hd
  split at hd
  · refine foldlInv
      (fun t : DocSt × ℚ => d ∈ t.1.draws → d ∈ doc.draws ∨ d.y = y)
      _ segs (doc, x) (fun h => Or.inl h) ?_ hd
    intro a seg ha hmem
    simp only [fallbackSegStep] at hmem
    rcases docText_mem _ _ _ _ _ _ hmem with h | h
    · exact ha (by simpa [applyStyle] using h)
    · exact Or.inr h
  · refine foldlInv
      (fun t : DocSt × ℚ => d ∈ t.1.draws → d ∈ doc.draws ∨ d.y = y)
      _ segs.enum
      (segs.foldl (fun dc seg => applyStyle dc seg.style dc.sz) doc, x)
      (fun h => Or.inl (by rwa [measureFold_draws] at h)) ?_ hd
    intro a iseg ha hmem
    simp only [justSegStep] at hmem
    split at hmem
    · rcases docText_mem _ _ _ _ _ _ hmem with h | h
      · exact ha (by simpa [applyStyle] using h)
      · exact Or.inr h
    · rcases docText_mem _ _ _ _ _ _ hmem with h | h
      · exact ha (by simpa [applyStyle] using h)
      · exact Or.inr h

theorem renderWrapped_mem (m : Meas) (o : PDFMarkdownOptions)
    (lh maxY xL xC aC mwJ xR : ℚ) (total : ℕ) (s : ℚ × DocSt)
    (iline : ℕ × List TextSegment) (d : DrawCmd)
    (hd : d ∈ (renderWrapped m o lh maxY xL xC aC mwJ xR total s iline).2.draws) :
    d ∈ s.2.draws ∨ d.y + lh ≤ maxY ∨ d.y = 20 + o.fontSize := by
  unfold renderWrapped at hd
  have hy := ensureRoom_y o.fontSize lh maxY s
  have hdr := ensureRoom_draws o.fontSize lh maxY s
  split at hd
  · rcases renderJustifiedLine_mem _ _ _ _ _ _ _ _ hd with h | h
    · exact Or.inl (hdr ▸ h)
    · exact Or.inr (h ▸ hy)
  · rcases drawSegs_mem _ _ _ _ _ _ _ hd with h | h
    · exact Or.inl (hdr ▸ h)
    · exact Or.inr (h ▸ hy)

theorem renderWrapped_fold_mem (m : Meas) (o : PDFMarkdownOptions)
    (lh maxY xL xC aC mwJ xR : ℚ) (total : ℕ) (s : ℚ × DocSt)
    (ls : List (ℕ × List TextSegment)) (d : DrawCmd)
    (hd : d ∈ (ls.foldl (renderWrapped m o lh maxY xL xC aC mwJ xR total) s).2.draws) :
    d ∈ s.2.draws ∨ d.y + lh ≤ maxY ∨ d.y = 20 + o.fontSize := by
  refine foldlInv
    (fun t : ℚ × DocSt =>
      d ∈ t.2.draws → d ∈ s.2.draws ∨ d.y + lh ≤ maxY ∨ d.y = 20 + o.fontSize)
    _ ls s (fun h => Or.inl h) ?_ hd
  intro a b ha hmem
  rcases renderWrapped_mem m o lh maxY xL xC aC mwJ xR total a b d hmem with h | h
  · exact ha h
  · exact Or.inr h

theorem parseLineStep_mem (m : Meas) (x lh maxY : ℚ) (o : PDFMarkdownOptions)
    (s : ℚ × DocSt) (rawLine : List Char) (d : DrawCmd)
    (hd : d ∈ (parseLineStep m x lh maxY o s rawLine).2.draws) :
    d ∈ s.2.draws ∨ d.y + lh ≤ maxY ∨ d.y = 20 + o.fontSize := by
  unfold parseLineStep at hd
  dsimp only at hd
  split at hd
  · -- blank line
    split at hd
    · exact Or.inl hd
    · exact Or.inl hd
  · split at hd
    · -- heading branch
      dsimp only at hd
      rcases renderWrapped_fold_mem _ _ _ _ _ _ _ _ _ _ _ _ _ hd with h | h
      · left
        rw [ensureRoom_draws] at h
        exact h
      · exact Or.inr h
    · split at hd
      · -- ordered list branch
        rcases renderWrapped_fold_mem _ _ _ _ _ _ _ _ _ _ _ _ _ hd with h | h
        · simp only [docText, List.mem_append, List.mem_singleton] at h
          rcases h with h | h
          · left
            rw [ensureRoom_draws] at h
            exact h
          · right
            rw [h]
            exact ensureRoom_y o.fontSize lh maxY s
        · exact Or.inr h
      · split at hd
        · -- unordered list branch
          rcases renderWrapped_fold_mem _ _ _ _ _ _ _ _ _ _ _ _ _ hd with h | h
          · simp only [docText, List.mem_append, List.mem_singleton] at h
            rcases h with h | h
            · left
              rw [ensureRoom_draws] at h
              exact h
            · right
              rw [h]
              exact ensureRoom_y o.fontSize lh maxY s
          · exact Or.inr h
        · -- paragraph branch
          rcases renderWrapped_fold_mem _ _ _ _ _ _ _ _ _ _ _ _ _ hd with h | h
          · left
            rw [ensureRoom_draws] at h
            exact h
          · exact Or.inr h

/-- C2: with `pageHeight = 297`, `bottomMargin = 20` and starting cursor
`y = 290`, emitting one more line of height `7` triggers exactly one
new-page request (`page` goes from `0` to `1`), the cursor resumes at the
host top-of-page `20 + fontSize = 30`, the single draw happens at
`y = 30 ≤ 277` on the new page, and the returned cursor is `37`.  In
general, in the normal (non-ToC) flow every draw call either predates the
invocation or happens at a `y` with `y + lineHeight ≤ pageHeight - 20`,
or at the reset position `20 + fontSize` directly after a new-page
request. -/
theorem claim_C2 :
    ((parsePDFMarkdown mOne 210 297 doc0 "a".data 0 290 optsLine7).2.page = 1 ∧
     (parsePDFMarkdown mOne 210 297 doc0 "a".data 0 290
         optsLine7).2.draws.map (fun d => (d.text, d.x, d.y, d.page)) =
       [("a".data, 5 / 2, 30, 1)] ∧
     (parsePDFMarkdown mOne 210 297 doc0 "a".data 0 290 optsLine7).1 = 37) ∧
    (∀ (m : Meas) (pw ph : ℚ) (doc : DocSt) (text : List Char) (x y : ℚ)
        (o : PDFMarkdownOptions), parseRoutesToToC text = false →
      ∀ d : DrawCmd, d ∈ (parsePDFMarkdown m pw ph doc text x y o).2.draws →
        d ∈ doc.draws ∨
          d.y + o.fontSize * (352778 / 1000000) * o.lineHeight ≤ ph - 20 ∨
          d.y = 20 + o.fontSize) := by
  constructor
  · refine ⟨?_, ?_, ?_⟩ <;>
      norm_num +decide [parsePDFMarkdown, tocCheck, containsSeq, startsWithSeq,
        collapseNewlines, collapseNlGo, replaceHr, splitOnNl, splitOnNlGo,
        parseLineStep, calculateIndentation, trimBoth, isWs, isDigit,
        headerMatch, ensureRoom, parseInlineMarkdown, pimGo, isMarker,
        splitTextToLinesSt, splitSegStep, splitWordStep, commitLine,
        splitWordIfNeeded, swinGo, fixLine, repairLine, repairSegStep,
        repairPartStep, wordsOf, wordsGo, strW, segW, lineW, variantOf,
        headingSize, plainStyle, renderWrapped, renderJustifiedLine,
        justSegStep, fallbackSegStep, drawSegs, applyStyle, docText, List.enum,
        List.enumFrom, mOne, doc0, optsLine7, orderedListMatch,
        unorderedListMatch]
  · intro m pw ph doc text x y o hroute d hd
    simp only [parseRoutesToToC] at hroute
    unfold parsePDFMarkdown at hd
    split at hd
    · exact Or.inl hd
    · rw [if_neg (by assumption)] at hroute
      rw [if_neg (by simp [hroute])] at hd
      dsimp only at hd
      refine foldlInv
        (fun t : ℚ × DocSt => d ∈ t.2.draws →
          d ∈ doc.draws ∨
            d.y + o.fontSize * (352778 / 1000000) * o.lineHeight ≤ ph - 20 ∨
            d.y = 20 + o.fontSize)
        _ _ _ (fun h => Or.inl h) ?_ hd
      intro a b ha hmem
      rcases parseLineStep_mem m x
        (o.fontSize * (352778 / 1000000) * o.lineHeight) (ph - 20) o a b d hmem
        with h | h
      · exact ha h
      · exact Or.inr h

/-- C2 (witness): the general page-break invariant instantiated at the
concrete scenario document and its single draw command. -/
theorem claim_C2_witness :
    (⟨"a".data, 5 / 2, 30, Variant.normal, 10, 1, false⟩ : DrawCmd) ∈ doc0.draws ∨
    (30 : ℚ) + optsLine7.fontSize * (352778 / 1000000) * optsLine7.lineHeight
        ≤ 297 - 20 ∨
    (30 : ℚ) = 20 + optsLine7.fontSize := by
  have heval : (parsePDFMarkdown mOne 210 297 doc0 "a".data 0 290
      optsLine7).2.draws =
      [⟨"a".data, 5 / 2, 30, Variant.normal, 10, 1, false⟩] := by
    norm_num +decide [parsePDFMarkdown, tocCheck, containsSeq, startsWithSeq,
      collapseNewlines, collapseNlGo, replaceHr, splitOnNl, splitOnNlGo,
      parseLineStep, calculateIndentation, trimBoth, isWs, isDigit, headerMatch,
      ensureRoom, parseInlineMarkdown, pimGo, isMarker, splitTextToLinesSt,
      splitSegStep, splitWordStep, commitLine, splitWordIfNeeded, swinGo,
      fixLine, repairLine, repairSegStep, repairPartStep, wordsOf, wordsGo,
      strW, segW, lineW, variantOf, headingSize, plainStyle, renderWrapped,
      renderJustifiedLine, justSegStep, fallbackSegStep, drawSegs, applyStyle,
      docText, List.enum, List.enumFrom, mOne, doc0, optsLine7,
      orderedListMatch, unorderedListMatch]
  exact claim_C2.2 mOne 210 297 doc0 "a".data 0 290 optsLine7 (by decide)
    ⟨"a".data, 5 / 2, 30, Variant.normal, 10, 1, false⟩
    (by rw [heval]; exact List.mem_singleton_self _)

/-! ## C10: the ToC formatter never paginates -/

/-- `b` extends `a` with draws on page `p` only, and stays on page `p`. -/
def DocExt (p : ℕ) (a b : DocSt) : Prop :=
  b.page = p ∧ ∀ d ∈ b.draws, d ∈ a.draws ∨ d.page = p

theorem DocExt_docText (p : ℕ) (a b : DocSt) (h : DocExt p a b)
    (t : List Char) (x y : ℚ) (al : Bool) :
    DocExt p a (docText b t x y al) := by
  refine ⟨h.1, fun d hd => ?_⟩
  simp only [docText, List.mem_append, List.mem_singleton] at hd
  rcases hd with hd | hd
  · exact h.2 d hd
  · right; rw [hd]; exact h.1

theorem DocExt_dots (p : ℕ) (a b : DocSt) (h : DocExt p a b)
    (n : ℕ) (f : ℕ → ℚ) (y : ℚ) :
    DocExt p a ((List.range n).foldl
      (fun (dc : DocSt) (i : ℕ) => docText dc ".".data (f i) y false) b) := by
  refine foldlInv (DocExt p a) _ (List.range n) b h ?_
  intro dc i hdc
  exact DocExt_docText p a dc hdc _ _ _ _

theorem DocExt_setV (p : ℕ) (a b : DocSt) (v1 : Variant) (h : DocExt p a b) :
    DocExt p a { b with v := v1 } :=
  ⟨h.1, h.2⟩

theorem tocStep_spec (m : Meas) (pw x lh : ℚ) (s : ℚ × DocSt) (L : List Char) :
    (tocLineStep m pw x lh s L).2.page = s.2.page ∧
      ∀ d ∈ (tocLineStep m pw x lh s L).2.draws,
        d ∈ s.2.draws ∨ d.page = s.2.page := by
  have base : ∀ v1 : Variant, DocExt s.2.page s.2 { s.2 with v := v1 } :=
    fun v1 => ⟨rfl, fun d hd => Or.inl hd⟩
  have hren : ∀ (doc1 : DocSt) (indent : ℚ) (pfx title pageNumber : List Char),
      DocExt s.2.page s.2 doc1 →
      DocExt s.2.page s.2 (tocRender m pw x s.1 doc1 indent pfx title pageNumber) := by
    intro doc1 indent pfx title pageNumber h1
    unfold tocRender
    dsimp only
    by_cases hp : pfx ≠ []
    · simp only [if_pos hp]
      apply DocExt_docText
      apply DocExt_dots
      apply DocExt_setV
      exact DocExt_docText _ _ _ (DocExt_docText _ _ _ h1 _ _ _ _) _ _ _ _
    · simp only [if_neg hp]
      apply DocExt_docText
      apply DocExt_dots
      apply DocExt_setV
      exact DocExt_docText _ _ _ h1 _ _ _ _
  unfold tocLineStep
  dsimp only
  split
  · exact ⟨rfl, fun d hd => Or.inl hd⟩
  · split
    · exact hren _ _ _ _ _ (by split <;> exact base _)
    · exact hren _ _ _ _ _ (by split <;> exact base _)

/-- C10: `formatPDFTableOfContents` never requests a new page — the page
counter is unchanged for every input and every draw it issues lands on
the entry page — and the returned cursor can exceed
`pageHeight - bottomMargin` (the routed one-line sample starting at
`y = 290` returns `300.5 > 277`). -/
theorem claim_C10 :
    (∀ (m : Meas) (pw : ℚ) (doc : DocSt) (text : List Char) (x y : ℚ)
        (o : PDFMarkdownOptions),
      (formatPDFTableOfContents m pw doc text x y o).2.page = doc.page ∧
      ∀ d ∈ (formatPDFTableOfContents m pw doc text x y o).2.draws,
        d ∈ doc.draws ∨ d.page = doc.page) ∧
    parseRoutesToToC tocSample = true ∧
    (297 - 20 : ℚ) <
      (formatPDFTableOfContents mOne 30 doc0 tocSample 0 290 optsLine7).1 := by
  refine ⟨?_, by decide, ?_⟩
  · intro m pw doc text x y o
    unfold formatPDFTableOfContents
    refine foldlInv
      (fun t : ℚ × DocSt => t.2.page = doc.page ∧
        ∀ d ∈ t.2.draws, d ∈ doc.draws ∨ d.page = doc.page)
      _ _ (y, doc) ⟨rfl, fun d hd => Or.inl hd⟩ ?_
    intro a b ha
    have hs := tocStep_spec m pw x
      (o.fontSize * (352778 / 1000000) * o.lineHeight) a b
    refine ⟨hs.1.trans ha.1, fun d hd => ?_⟩
    rcases hs.2 d hd with h | h
    · exact ha.2 d h
    · exact Or.inr (h.trans ha.1)
  · norm_num +decide [formatPDFTableOfContents, tocLineStep, splitOnNl,
      splitOnNlGo, trimBoth, isWs, pageScan, pageMatchAt, pageCapture,
      pageTokenOk, startsWithCI, isRomanCI, isDigit, stripHalamanSuffix,
      startsWithSeq, babTest, subChapterTest, splitTitle, tocSample,
      optsLine7, mOne, doc0]

/-- C10 (witness): the page invariant applied to the concrete routed
sample document. -/
theorem claim_C10_witness :
    (formatPDFTableOfContents mOne 30 doc0 tocSample 0 290 optsLine7).2.page
      = doc0.page :=
  (claim_C10.1 mOne 30 doc0 tocSample 0 290 optsLine7).1

/-! ## C7: idempotent re-break -/

/-- C7 (counterexample): the single produced line of the italic input
`"*aaaa*"` has concatenated text `"aaaa"`; re-breaking that text with the
same available width `9` re-parses it as a plain (wide) run and splits it
into four lines (all emptied by the width repair), so the original
one-line boundary is not reproduced. -/
theorem claim_C7_counterexample :
    splitTextToLines mIt Variant.normal 10 (parseInlineMarkdown "*aaaa*".data) 9 0
      = [[⟨"aaaa".data, italicStyle⟩]] ∧
    textConcat [(⟨"aaaa".data, italicStyle⟩ : TextSegment)] = "aaaa".data ∧
    splitTextToLines mIt Variant.normal 10 (parseInlineMarkdown "aaaa".data) 9 0
      = [[], [], [], []] ∧
    ([[], [], [], []] : List (List TextSegment)).length ≠
      ([[⟨"aaaa".data, italicStyle⟩]] : List (List TextSegment)).length := by
  refine ⟨?_, by decide, ?_, by decide⟩ <;>
    norm_num +decide [splitTextToLines, splitTextToLinesSt, splitSegStep,
      splitWordStep, commitLine, fixLine, repairLine, repairSegStep,
      repairPartStep, splitWordIfNeeded, swinGo, strW, segW, lineW, wordsOf,
      wordsGo, variantOf, plainStyle, italicStyle, mIt, isWs,
      parseInlineMarkdown, pimGo, isMarker, textConcat]

theorem variantOf_plain : variantOf plainStyle = Variant.normal := rfl

theorem strW_append (m : Meas) (v : Variant) (a b : List Char) :
    strW m v (a ++ b) = strW m v a + strW m v b := by
  simp [strW]

theorem strW_nonneg (m : Meas) (hm : ∀ c v, 0 ≤ m c v) (v : Variant)
    (t : List Char) : 0 ≤ strW m v t := by
  refine List.sum_nonneg ?_
  intro q hq
  rcases List.mem_map.1 hq with ⟨c, _, rfl⟩
  exact hm c v

theorem lineW_nonneg (m : Meas) (hm : ∀ c v, 0 ≤ m c v)
    (l : List TextSegment) : 0 ≤ lineW m l := by
  refine List.sum_nonneg ?_
  intro q hq
  rcases List.mem_map.1 hq with ⟨s, _, rfl⟩
  exact strW_nonneg m hm _ _

theorem lineW_append2 (m : Meas) (a b : List TextSegment) :
    lineW m (a ++ b) = lineW m a + lineW m b := by
  simp [lineW]

theorem wordsGo_ok :
    ∀ (s cur : List Char),
      (∀ c ∈ s, isWs c = false → isMarker c = false) →
      (∀ c ∈ cur, isWs c = false ∧ isMarker c = false) →
      ∀ w ∈ wordsGo cur s, WordOK w := by
  intro s
  induction s with
  | nil =>
      intro cur _ hcur w hw
      simp only [wordsGo] at hw
      split at hw
      · simp at hw
      · rw [List.mem_singleton.1 hw]
        exact ⟨by assumption, hcur⟩
  | cons c rest ih =>
      intro cur hs hcur w hw
      simp only [wordsGo] at hw
      by_cases hc : isWs c = true
      · rw [if_pos hc] at hw
        split at hw
        · exact ih [] (fun d hd => hs d (List.mem_cons_of_mem c hd)) (by simp) w hw
        · rcases List.mem_cons.1 hw with h | h
          · rw [h]; exact ⟨by assumption, hcur⟩
          · exact ih [] (fun d hd => hs d (List.mem_cons_of_mem c hd)) (by simp) w h
      · rw [if_neg hc] at hw
        refine ih (cur ++ [c]) (fun d hd => hs d (List.mem_cons_of_mem c hd)) ?_ w hw
        intro d hd
        rcases List.mem_append.1 hd with h | h
        · exact hcur d h
        · rw [List.mem_singleton.1 h]
          have hns : isWs c = false := by
            cases hx : isWs c
            · rfl
            · exact absurd hx hc
          exact ⟨hns, hs c (List.mem_cons_self c rest) hns⟩

theorem wordsOf_ok (s : List Char)
    (hs : ∀ c ∈ s, isWs c = false → isMarker c = false) :
    ∀ w ∈ wordsOf s, WordOK w :=
  wordsGo_ok s [] hs (by simp)

theorem swinGo_ok (m : Meas) (th : ℚ) :
    ∀ (s cp : List Char) (acc : List TextSegment),
      (∀ c ∈ s, isWs c = false ∧ isMarker c = false) →
      (∀ c ∈ cp, isWs c = false ∧ isMarker c = false) →
      (2 ≤ cp.length → strW m Variant.normal cp ≤ th) →
      (∀ p ∈ acc, p.style = plainStyle ∧ WordOK p.text ∧ PartShape m th p.text) →
      ∀ p ∈ swinGo (strW m (variantOf plainStyle)) th plainStyle s cp acc,
        p.style = plainStyle ∧ WordOK p.text ∧ PartShape m th p.text := by
  intro s
  induction s with
  | nil =>
      intro cp acc _ hcp hcpw hacc p hp
      simp only [swinGo, variantOf_plain] at hp
      split at hp
      · exact hacc p hp
      · rcases List.mem_append.1 hp with h | h
        · exact hacc p h
        · rw [List.mem_singleton.1 h]
          refine ⟨rfl, ⟨by assumption, hcp⟩, ?_⟩
          rcases cp with _ | ⟨a, _ | ⟨b, r⟩⟩
          · simp_all
          · exact Or.inl ⟨a, rfl⟩
          · exact Or.inr (Or.inl ⟨by simp, hcpw (by simp)⟩)
  | cons c rest ih =>
      intro cp acc hs hcp hcpw hacc p hp
      simp only [swinGo, variantOf_plain] at hp
      have hsrest : ∀ d ∈ rest, isWs d = false ∧ isMarker d = false :=
        fun d hd => hs d (List.mem_cons_of_mem c hd)
      have hc := hs c (List.mem_cons_self c rest)
      have hcchars : ∀ d ∈ [c], isWs d = false ∧ isMarker d = false := by
        intro d hd; rw [List.mem_singleton.1 hd]; exact hc
      split at hp
      · -- cut
        split at hp
        · -- cp.length ≥ 2: emit cp ++ '-'
          refine ih [c] _ hsrest hcchars (by intro h2; simp at h2) ?_ p hp
          intro q hq
          rcases List.mem_append.1 hq with h | h
          · exact hacc q h
          · rw [List.mem_singleton.1 h]
            refine ⟨rfl, ⟨by simp, ?_⟩, ?_⟩
            · intro d hd
              rcases List.mem_append.1 hd with h1 | h1
              · exact hcp d h1
              · rw [List.mem_singleton.1 h1]; exact ⟨by decide, by decide⟩
            · exact Or.inr (Or.inr ⟨cp, rfl, by
                intro he; subst he; simp_all, hcpw (by assumption)⟩)
        · split at hp
          · -- cp singleton: emit cp
            refine ih [c] _ hsrest hcchars (by intro h2; simp at h2) ?_ p hp
            intro q hq
            rcases List.mem_append.1 hq with h | h
            · exact hacc q h
            · rw [List.mem_singleton.1 h]
              refine ⟨rfl, ⟨by assumption, hcp⟩, ?_⟩
              rcases cp with _ | ⟨a, _ | ⟨b, r⟩⟩
              · simp_all
              · exact Or.inl ⟨a, rfl⟩
              · exact absurd (by simp : 2 ≤ (b :: r).length + 1)
                  (by assumption)
          · -- cp empty: emit [c]
            refine ih [] _ hsrest (by simp) (by intro h2; simp at h2) ?_ p hp
            intro q hq
            rcases List.mem_append.1 hq with h | h
            · exact hacc q h
            · rw [List.mem_singleton.1 h]
              exact ⟨rfl, ⟨by simp, hcchars⟩, Or.inl ⟨c, rfl⟩⟩
      · -- no cut: extend cp
        refine ih (cp ++ [c]) _ hsrest ?_ ?_ hacc p hp
        · intro d hd
          rcases List.mem_append.1 hd with h | h
          · exact hcp d h
          · rw [List.mem_singleton.1 h]; exact hc
        · intro _
          have : ¬ strW m (variantOf plainStyle) (cp ++ [c]) > th := by assumption
          rw [variantOf_plain] at this
          linarith [not_lt.mp this]

theorem AltLine_ne_nil {l : List TextSegment} (h : AltLine l) : l ≠ [] := by
  cases h <;> simp

theorem AltLine_append {l : List TextSegment} (h : AltLine l)
    (w : TextSegment) (hw : isWordSeg w) :
    AltLine (l ++ [⟨[' '], plainStyle⟩, w]) := by
  induction h with
  | single s hs => exact AltLine.more s [w] hs (AltLine.single w hw)
  | more s rest hs _ ih => exact AltLine.more s _ hs ih

theorem segW_space (m : Meas) :
    segW m ⟨[' '], plainStyle⟩ = m ' ' Variant.normal := by
  simp [segW, strW, variantOf_plain]

theorem segW_plain (m : Meas) (t : List Char) :
    segW m ⟨t, plainStyle⟩ = strW m Variant.normal t := by
  simp [segW, variantOf_plain]

theorem CurOK_nil (m : Meas) (aw : ℚ) (st : SplitSt) (h : CurOK m aw st)
    (hc : st.cur = []) : st.curW = 0 := by
  rcases h with ⟨_, h2⟩ | ⟨h1, _, _⟩ | ⟨t, h1, _⟩
  · exact h2
  · exact absurd hc (AltLine_ne_nil h1)
  · rw [h1] at hc; simp at hc

theorem commitLine_ok (m : Meas) (aw : ℚ) (st : SplitSt)
    (h : MainInv m aw st) :
    (∀ l ∈ (commitLine st).committed, LineOK m aw l) ∧
      (commitLine st).cur = [] ∧ (commitLine st).curW = 0 := by
  unfold commitLine
  split
  · exact ⟨h.1, by assumption, CurOK_nil m aw st h.2 (by assumption)⟩
  · refine ⟨?_, rfl, rfl⟩
    intro l hl
    rcases List.mem_append.1 hl with h1 | h1
    · exact h.1 l h1
    · rw [List.mem_singleton.1 h1]
      rcases h.2 with ⟨hc, _⟩ | ⟨h1, h2, h3⟩ | ⟨t, h1, h2, h3, _⟩
      · exact absurd hc (by assumption)
      · exact Or.inl ⟨h1, h2 ▸ h3⟩
      · exact Or.inr ⟨t, h1, h2, h3⟩

theorem commitLine_nil (st : SplitSt) (h : st.cur = []) : commitLine st = st := by
  unfold commitLine
  rw [if_pos h]

theorem lineW_snoc2 (m : Meas) (l : List TextSegment) (word : List Char) :
    lineW m (l ++ [⟨[' '], plainStyle⟩, ⟨word, plainStyle⟩]) =
      lineW m l + m ' ' Variant.normal + strW m Variant.normal word := by
  simp only [lineW, List.map_append, List.sum_append, List.map_cons,
    List.map_nil, List.sum_cons, List.sum_nil, add_zero, segW_plain]
  simp only [strW, List.map_cons, List.map_nil, List.sum_cons, List.sum_nil,
    add_zero]
  ring

theorem splitWordStep_inv (m : Meas) (aw : ℚ)
    (st : SplitSt) (word : List Char) (hw : WordOK word)
    (h : MainInv m aw st) :
    MainInv m aw (splitWordStep m (m ' ' Variant.normal) aw plainStyle st word) := by
  have hparts : ¬ strW m (variantOf plainStyle) word ≤ aw →
      ∀ p ∈ splitWordIfNeeded m word plainStyle aw,
        p.style = plainStyle ∧ WordOK p.text ∧
          PartShape m (aw * 95 / 100) p.text := by
    intro hwno
    unfold splitWordIfNeeded
    rw [if_neg hwno]
    exact swinGo_ok m (aw * 95 / 100) word [] [] hw.2 (by simp) (by simp)
      (by simp)
  have hsplit : ∀ (s1com : List (List TextSegment)),
      (∀ l ∈ s1com, LineOK m aw l) →
      ¬ strW m (variantOf plainStyle) word ≤ aw →
      MainInv m aw
        (match splitWordIfNeeded m word plainStyle aw with
          | [] => { committed := s1com, cur := [], curW := 0,
                    v := variantOf plainStyle }
          | p :: ps =>
              { committed := s1com ++ (p :: ps).dropLast.map (fun q => [q]),
                cur := [(p :: ps).getLastD p],
                curW := strW m (variantOf plainStyle) ((p :: ps).getLastD p).text,
                v := variantOf plainStyle }) := by
    intro s1com hcom hwno
    have hp := hparts hwno
    rcases hps : splitWordIfNeeded m word plainStyle aw with _ | ⟨p, ps⟩
    · exact ⟨hcom, Or.inl ⟨rfl, rfl⟩⟩
    · rw [hps] at hp
      refine ⟨?_, ?_⟩
      · intro l hl
        rcases List.mem_append.1 hl with h1 | h1
        · exact hcom l h1
        · rcases List.mem_map.1 h1 with ⟨q, hq, rfl⟩
          have hqf := hp q (List.dropLast_subset _ hq)
          refine Or.inr ⟨q.text, ?_, hqf.2.1, hqf.2.2⟩
          cases q
          simp only at hqf
          rw [hqf.1]
      · have hlast : (p :: ps).getLastD p ∈ p :: ps :=
          List.mem_of_mem_getLast? rfl
        have hlf := hp _ hlast
        refine Or.inr (Or.inr ⟨((p :: ps).getLastD p).text, ?_, hlf.2.1,
          hlf.2.2, ?_⟩)
        · cases hq : (p :: ps).getLastD p
          simp only [hq] at hlf ⊢
          rw [hlf.1]
        · simp only [lineW, List.map_cons, List.map_nil, List.sum_cons,
            List.sum_nil, add_zero, segW]
          cases hq : (p :: ps).getLastD p
          simp only [hq] at hlf ⊢
          rw [hlf.1]
  unfold splitWordStep
  dsimp only
  by_cases hnil : st.cur = []
  · simp only [if_pos hnil]
    have h0 := CurOK_nil m aw st h.2 hnil
    split
    next hfit =>
      refine ⟨h.1, Or.inr (Or.inl ⟨AltLine.single _ ⟨rfl, hw⟩, ?_, ?_⟩)⟩
      · simp [h0, lineW, segW_plain, variantOf_plain]
      · dsimp only
        linarith
    next hnofit =>
      split
      next hwfit =>
        rw [commitLine_nil st hnil]
        refine ⟨h.1, Or.inr (Or.inl ⟨AltLine.single _ ⟨rfl, hw⟩, ?_, ?_⟩)⟩
        · simp [lineW, segW_plain, variantOf_plain]
        · rw [variantOf_plain] at hwfit
          simpa [lineW, segW_plain] using hwfit
      next hwno =>
        exact hsplit st.committed h.1 hwno
  · simp only [if_neg hnil]
    split
    next hfit =>
      rcases h.2 with ⟨hc, _⟩ | ⟨h1, h2, h3⟩ | ⟨t, h1, h2, h3, h4⟩
      · exact absurd hc hnil
      · refine ⟨h.1, Or.inr (Or.inl ⟨AltLine_append h1 _ ⟨rfl, hw⟩, ?_, ?_⟩)⟩
        · dsimp only
          rw [lineW_snoc2, h2, variantOf_plain]
        · dsimp only
          linarith
      · refine ⟨h.1, Or.inr (Or.inl ⟨?_, ?_, ?_⟩)⟩
        · rw [h1]
          exact AltLine_append (AltLine.single _ ⟨rfl, h2⟩) _ ⟨rfl, hw⟩
        · dsimp only
          rw [h1, lineW_snoc2, h4, h1, variantOf_plain]
        · dsimp only
          linarith
    next hnofit =>
      split
      next hwfit =>
        obtain ⟨hcom, _, _⟩ := commitLine_ok m aw st h
        refine ⟨hcom, Or.inr (Or.inl ⟨AltLine.single _ ⟨rfl, hw⟩, ?_, ?_⟩)⟩
        · simp [lineW, segW_plain, variantOf_plain]
        · rw [variantOf_plain] at hwfit
          simpa [lineW, segW_plain] using hwfit
      next hwno =>
        exact hsplit (commitLine st).committed (commitLine_ok m aw st h).1 hwno

theorem foldlInvMem {α β : Type} (P : α → Prop) (f : α → β → α) :
    ∀ (l : List β) (s : α), P s → (∀ a b, b ∈ l → P a → P (f a b)) →
      P (l.foldl f s) := by
  intro l
  induction l with
  | nil => intro s h _; exact h
  | cons b rest ih =>
      intro s h hstep
      exact ih (f s b) (hstep s b (List.mem_cons_self b rest) h)
        (fun a c hc ha => hstep a c (List.mem_cons_of_mem b hc) ha)

theorem splitSegStep_inv (m : Meas) (aw : ℚ) (st : SplitSt) (seg : TextSegment)
    (hst : seg.style = plainStyle)
    (hnm : ∀ c ∈ seg.text, isWs c = false → isMarker c = false)
    (h : MainInv m aw st) :
    MainInv m aw (splitSegStep m (m ' ' Variant.normal) aw st seg) := by
  unfold splitSegStep
  rw [hst]
  refine foldlInvMem (MainInv m aw) _ (wordsOf seg.text) st h ?_
  intro a w hwm ha
  exact splitWordStep_inv m aw a w (wordsOf_ok seg.text hnm w hwm) ha

theorem mainFold_inv (m : Meas) (aw : ℚ) (segments : List TextSegment)
    (hpl : ∀ seg ∈ segments, seg.style = plainStyle)
    (hnm : ∀ seg ∈ segments, ∀ c ∈ seg.text, isWs c = false → isMarker c = false) :
    MainInv m aw (segments.foldl (splitSegStep m (m ' ' Variant.normal) aw)
      ⟨[], [], 0, Variant.normal⟩) := by
  refine foldlInvMem (MainInv m aw) _ segments _
    ⟨by simp, Or.inl ⟨rfl, rfl⟩⟩ ?_
  intro a seg hs ha
  exact splitSegStep_inv m aw a seg (hpl seg hs) (hnm seg hs) ha

theorem swin_no_cut (m : Meas) (th : ℚ) (hm : ∀ c v, 0 ≤ m c v) :
    ∀ (d rest cp : List Char) (acc : List TextSegment),
      strW m Variant.normal (cp ++ d) ≤ th →
      swinGo (strW m (variantOf plainStyle)) th plainStyle (d ++ rest) cp acc =
        swinGo (strW m (variantOf plainStyle)) th plainStyle rest (cp ++ d) acc := by
  intro d
  induction d with
  | nil => intro rest cp acc _; simp
  | cons c d2 ih =>
      intro rest cp acc hth
      have hassoc : (cp ++ [c]) ++ d2 = cp ++ c :: d2 := by simp
      have hc : ¬ strW m (variantOf plainStyle) (cp ++ [c]) > th := by
        rw [variantOf_plain]
        have hsum : strW m Variant.normal (cp ++ c :: d2) =
            strW m Variant.normal (cp ++ [c]) + strW m Variant.normal d2 := by
          rw [← hassoc, strW_append]
        have hn := strW_nonneg m hm Variant.normal d2
        linarith
      show swinGo _ th plainStyle (c :: (d2 ++ rest)) cp acc = _
      rw [swinGo, if_neg hc, ih rest (cp ++ [c]) acc (by rw [hassoc]; exact hth),
        hassoc]

theorem repair_single (m : Meas) (sw aw : ℚ) (hm : ∀ c v, 0 ≤ m c v)
    (h0 : 0 ≤ aw) (t : List Char) (hW : WordOK t)
    (hP : PartShape m (aw * 95 / 100) t)
    (hwide : ¬ strW m Variant.normal t ≤ aw) (v0 : Variant) :
    (repairLine m sw aw [⟨t, plainStyle⟩] v0).1 = [] ∨
    ∃ u, (repairLine m sw aw [⟨t, plainStyle⟩] v0).1 = [⟨u, plainStyle⟩] ∧
      WordOK u ∧ strW m Variant.normal u ≤ aw := by
  have hth : aw * 95 / 100 ≤ aw := by linarith
  have hgt : strW m Variant.normal t > aw * 95 / 100 := by
    have := not_le.mp hwide
    linarith
  have hns : ¬ ((⟨t, plainStyle⟩ : TextSegment).text = [' ']) := by
    intro he
    simp only at he
    have := (hW.2 ' ' (by rw [he]; exact List.mem_singleton_self _)).1
    simp [isWs] at this
  unfold repairLine
  simp only [List.foldl_cons, List.foldl_nil]
  unfold repairSegStep
  rw [if_neg hns]
  simp only [sub_zero]
  unfold splitWordIfNeeded
  rw [if_neg (by rw [variantOf_plain]; exact hwide)]
  rcases hP with ⟨c, rfl⟩ | ⟨hne, hle⟩ | ⟨d, rfl, hdne, hdle⟩
  · -- single character: the only fragment is the character itself; it does
    -- not fit and is dropped
    rw [show swinGo (strW m (variantOf plainStyle)) (aw * 95 / 100) plainStyle
        [c] [] [] = [⟨[c], plainStyle⟩] from by
      rw [swinGo, if_pos (by rw [variantOf_plain]; simpa using hgt)]
      simp [swinGo]]
    left
    simp only [List.foldl_cons, List.foldl_nil]
    unfold repairPartStep
    rw [if_neg (by
      simp only [variantOf_plain]
      intro hc
      exact hwide (by linarith))]
  · exact absurd hle (by linarith)
  · -- chunk plus hyphen: the walk reaches the hyphen without a cut
    have hnocut := swin_no_cut m (aw * 95 / 100) hm d ['-'] [] []
      (by simpa using hdle)
    simp only [List.nil_append] at hnocut
    rw [hnocut]
    have hcut : strW m (variantOf plainStyle) (d ++ ['-']) > aw * 95 / 100 := by
      rw [variantOf_plain]; exact hgt
    by_cases hd2 : 2 ≤ d.length
    · -- the whole fragment is re-emitted (too wide, dropped), then the
      -- lone hyphen
      rw [show swinGo (strW m (variantOf plainStyle)) (aw * 95 / 100)
          plainStyle ['-'] d [] = [⟨d ++ ['-'], plainStyle⟩, ⟨['-'], plainStyle⟩]
          from by
        rw [swinGo, if_pos hcut, if_pos hd2]
        simp [swinGo]]
      have hstep1 : repairPartStep m aw ([], 0, variantOf plainStyle)
          ⟨d ++ ['-'], plainStyle⟩ = ([], 0, variantOf plainStyle) := by
        unfold repairPartStep
        rw [if_neg (by
          simp only [variantOf_plain]
          intro hc
          exact hwide (by linarith))]
      simp only [List.foldl_cons, List.foldl_nil]
      rw [hstep1]
      unfold repairPartStep
      by_cases hh : (0 : ℚ) + strW m (variantOf plainStyle) ['-'] ≤ aw
      · rw [if_pos (by simpa using hh)]
        right
        refine ⟨['-'], rfl, ⟨by simp, ?_⟩, ?_⟩
        · intro c hc
          rw [List.mem_singleton.1 hc]
          exact ⟨by decide, by decide⟩
        · rw [variantOf_plain] at hh
          linarith
      · rw [if_neg (by simpa using hh)]
        left
        rfl
    · -- a one-character chunk: it is re-emitted and fits, the hyphen does not
      have hd1 : d.length = 1 := by
        rcases d with _ | ⟨a, _ | ⟨b, r⟩⟩
        · exact absurd rfl hdne
        · rfl
        · exact absurd (by simp) hd2
      rw [show swinGo (strW m (variantOf plainStyle)) (aw * 95 / 100)
          plainStyle ['-'] d [] = [⟨d, plainStyle⟩, ⟨['-'], plainStyle⟩]
          from by
        rw [swinGo, if_pos hcut, if_neg (by omega), if_pos hdne]
        simp [swinGo]]
      have hstep1 : repairPartStep m aw ([], 0, variantOf plainStyle)
          ⟨d, plainStyle⟩ = ([⟨d, plainStyle⟩], 0 + strW m Variant.normal d,
            variantOf plainStyle) := by
        unfold repairPartStep
        rw [if_pos (by simp only [variantOf_plain]; linarith)]
        simp [variantOf_plain]
      have hstep2 : repairPartStep m aw
          ([⟨d, plainStyle⟩], 0 + strW m Variant.normal d, variantOf plainStyle)
          ⟨['-'], plainStyle⟩ =
          ([⟨d, plainStyle⟩], 0 + strW m Variant.normal d, variantOf plainStyle) := by
        unfold repairPartStep
        rw [if_neg (by
          simp only [variantOf_plain]
          intro hc
          refine hwide ?_
          have hsum : strW m Variant.normal (d ++ ['-']) =
              strW m Variant.normal d + strW m Variant.normal ['-'] :=
            strW_append m Variant.normal d ['-']
          linarith)]
      simp only [List.foldl_cons, List.foldl_nil]
      rw [hstep1, hstep2]
      right
      refine ⟨d, rfl, ⟨hdne, ?_⟩, by linarith⟩
      intro c hc
      exact hW.2 c (by simp [hc])

theorem fixLine_out (m : Meas) (sw aw : ℚ) (hm : ∀ c v, 0 ≤ m c v)
    (h0 : 0 ≤ aw) (s : List (List TextSegment) × Variant)
    (line : List TextSegment) (hline : LineOK m aw line)
    (h : ∀ l ∈ s.1, OutOK m aw l) :
    ∀ l ∈ (fixLine m sw aw s line).1, OutOK m aw l := by
  intro l hl
  unfold fixLine at hl
  dsimp only at hl
  by_cases hw : lineW m line > aw
  · rw [if_pos hw] at hl
    rcases List.mem_append.1 hl with h1 | h1
    · exact h l h1
    · rw [List.mem_singleton.1 h1]
      rcases hline with ⟨_, hle⟩ | ⟨t, rfl, hWOK, hPS⟩
      · exact absurd hle (not_le.mpr hw)
      · have hwide : ¬ strW m Variant.normal t ≤ aw := by
          intro hc
          refine absurd ?_ (not_le.mpr hw)
          simpa [lineW, segW_plain] using hc
        rcases repair_single m sw aw hm h0 t hWOK hPS hwide _ with hr | ⟨u, hr, hu, hub⟩
        · rw [hr]; exact Or.inl rfl
        · rw [hr]
          refine Or.inr ⟨AltLine.single _ ⟨rfl, hu⟩, ?_⟩
          simpa [lineW, segW_plain] using hub
  · rw [if_neg hw] at hl
    rcases List.mem_append.1 hl with h1 | h1
    · exact h l h1
    · rw [List.mem_singleton.1 h1]
      rcases hline with ⟨halt, hle⟩ | ⟨t, rfl, hWOK, _⟩
      · exact Or.inr ⟨halt, hle⟩
      · refine Or.inr ⟨AltLine.single _ ⟨rfl, hWOK⟩, ?_⟩
        exact not_lt.mp hw

theorem splitTextToLines_out (m : Meas) (fsz : ℚ)
    (segments : List TextSegment) (maxWidth baseIndentation : ℚ)
    (hm : ∀ c v, 0 ≤ m c v)
    (haw : 0 ≤ maxWidth - baseIndentation * fsz)
    (hpl : ∀ seg ∈ segments, seg.style = plainStyle)
    (hnm : ∀ seg ∈ segments, ∀ c ∈ seg.text, isWs c = false → isMarker c = false) :
    ∀ line ∈ splitTextToLines m Variant.normal fsz segments maxWidth
        baseIndentation,
      OutOK m (maxWidth - baseIndentation * fsz) line := by
  intro line hline
  unfold splitTextToLines splitTextToLinesSt at hline
  dsimp only at hline
  have hmain := mainFold_inv m (maxWidth - baseIndentation * fsz) segments hpl hnm
  have hcom := (commitLine_ok m (maxWidth - baseIndentation * fsz) _ hmain).1
  refine foldlInvMem
    (fun s : List (List TextSegment) × Variant =>
      ∀ l ∈ s.1, OutOK m (maxWidth - baseIndentation * fsz) l)
    _ _ _ (by simp) ?_ line hline
  intro a b hbm ha
  exact fixLine_out m (m ' ' Variant.normal) (maxWidth - baseIndentation * fsz)
    hm haw a b (hcom b (List.mem_of_mem_filter hbm)) ha

theorem pimGo_no_marker :
    ∀ (s cur : List Char) (st : TextStyle),
      (∀ c ∈ s, isMarker c = false) →
      pimGo s cur st = if cur ++ s = [] then [] else [⟨cur ++ s, st⟩] := by
  intro s cur st
  induction s, cur, st using pimGo.induct
  all_goals intro hs
  all_goals simp_all [pimGo]

theorem altLine_concat_ok : ∀ (l : List TextSegment), AltLine l →
    textConcat l ≠ [] ∧ ∀ c ∈ textConcat l, isMarker c = false := by
  intro l h
  induction h with
  | single s hs =>
      constructor
      · simp [textConcat_cons, textConcat_nil]
        exact hs.2.1
      · intro c hc
        simp only [textConcat_cons, textConcat_nil, List.append_nil] at hc
        exact (hs.2.2 c hc).2
  | more s rest hs _ ih =>
      constructor
      · simp [textConcat_cons]
      · intro c hc
        simp only [textConcat_cons] at hc
        rcases List.mem_append.1 hc with h1 | h1
        · exact (hs.2.2 c h1).2
        · rcases List.mem_cons.1 h1 with h2 | h2
          · rw [h2]; decide
          · exact ih.2 c h2

theorem wordsGo_chunk : ∀ (t s cur : List Char),
    (∀ c ∈ t, isWs c = false) →
    wordsGo cur (t ++ s) = wordsGo (cur ++ t) s := by
  intro t
  induction t with
  | nil => intro s cur _; simp
  | cons c t2 ih =>
      intro s cur ht
      show wordsGo cur (c :: (t2 ++ s)) = _
      rw [wordsGo, if_neg (by simp [ht c (List.mem_cons_self c t2)])]
      rw [ih s (cur ++ [c]) (fun d hd => ht d (List.mem_cons_of_mem c hd))]
      simp

theorem wordsGo_space (cur s : List Char) (h : cur ≠ []) :
    wordsGo cur (' ' :: s) = cur :: wordsGo [] s := by
  rw [wordsGo, if_pos (by decide), if_neg h]

theorem wordsOf_altLine : ∀ (l : List TextSegment), AltLine l →
    wordsOf (textConcat l) = altWords l := by
  intro l h
  induction h with
  | single s hs =>
      show wordsGo [] (textConcat [s]) = altWords [s]
      simp only [textConcat_cons, textConcat_nil, List.append_nil]
      rw [show s.text = s.text ++ [] from (List.append_nil _).symm,
        wordsGo_chunk s.text [] [] (fun c hc => (hs.2.2 c hc).1)]
      simp only [List.append_nil, List.nil_append]
      rw [wordsGo, if_neg hs.2.1]
      rfl
  | more s rest hs hr ih =>
      show wordsGo [] (textConcat (s :: ⟨[' '], plainStyle⟩ :: rest)) = _
      simp only [textConcat_cons]
      rw [show ([' '] : List Char) ++ textConcat rest = ' ' :: textConcat rest
          from rfl]
      rw [wordsGo_chunk s.text (' ' :: textConcat rest) []
        (fun c hc => (hs.2.2 c hc).1)]
      simp only [List.nil_append]
      rw [wordsGo_space s.text (textConcat rest) hs.2.1]
      rw [show wordsGo [] (textConcat rest) = wordsOf (textConcat rest) from rfl,
        ih]
      rfl

theorem splitWordStep_fit (m : Meas) (aw w : ℚ)
    (cur0 : List TextSegment) (hne : cur0 ≠ [])
    (word : List Char)
    (hfit : w + m ' ' Variant.normal + strW m Variant.normal word ≤ aw) :
    splitWordStep m (m ' ' Variant.normal) aw plainStyle
        ⟨[], cur0, w, Variant.normal⟩ word =
      ⟨[], cur0 ++ [⟨[' '], plainStyle⟩, ⟨word, plainStyle⟩],
        w + m ' ' Variant.normal + strW m Variant.normal word,
        Variant.normal⟩ := by
  unfold splitWordStep
  simp only [variantOf_plain, if_neg hne]
  rw [if_pos hfit]

set_option maxHeartbeats 1600000 in
theorem rebuild_fold (m : Meas) (aw : ℚ) (hm : ∀ c v, 0 ≤ m c v) :
    ∀ (rest : List TextSegment), AltLine rest →
    ∀ (cur0 : List TextSegment), AltLine cur0 →
      lineW m cur0 + m ' ' Variant.normal + lineW m rest ≤ aw →
      (altWords rest).foldl
          (splitWordStep m (m ' ' Variant.normal) aw plainStyle)
          ⟨[], cur0, lineW m cur0, Variant.normal⟩ =
        ⟨[], cur0 ++ ⟨[' '], plainStyle⟩ :: rest,
          lineW m (cur0 ++ ⟨[' '], plainStyle⟩ :: rest), Variant.normal⟩ := by
  intro rest h
  induction h with
  | single s hs =>
      intro cur0 hcur hle
      obtain ⟨t, st⟩ := s
      obtain ⟨hst, hW⟩ := hs
      dsimp only at hst
      subst hst
      have hle1 : lineW m ([⟨t, plainStyle⟩] : List TextSegment) =
          strW m Variant.normal t := by
        simp [lineW, segW_plain]
      show splitWordStep m (m ' ' Variant.normal) aw plainStyle
          ⟨[], cur0, lineW m cur0, Variant.normal⟩ t = _
      rw [splitWordStep_fit m aw (lineW m cur0) cur0 (AltLine_ne_nil hcur) t
        (by rw [hle1] at hle; linarith)]
      rw [show cur0 ++ (⟨[' '], plainStyle⟩ :: [⟨t, plainStyle⟩]) =
          cur0 ++ [⟨[' '], plainStyle⟩, ⟨t, plainStyle⟩] from rfl,
        lineW_snoc2]
  | more s rest2 hs hr ih =>
      intro cur0 hcur hle
      obtain ⟨t, st⟩ := s
      obtain ⟨hst, hW⟩ := hs
      dsimp only at hst
      subst hst
      have hle2 : strW m Variant.normal t + m ' ' Variant.normal +
          lineW m rest2 =
          lineW m (⟨t, plainStyle⟩ :: ⟨[' '], plainStyle⟩ :: rest2) := by
        simp [lineW, segW_plain, segW_space, strW]
        ring
      have hr2 : 0 ≤ lineW m rest2 := lineW_nonneg m hm rest2
      have hsw : 0 ≤ m ' ' Variant.normal := hm ' ' Variant.normal
      have hfit1 : lineW m cur0 + m ' ' Variant.normal +
          strW m Variant.normal t ≤ aw := by
        rw [← hle2] at hle
        linarith
      have hb : lineW m (cur0 ++ [⟨[' '], plainStyle⟩, ⟨t, plainStyle⟩]) +
          m ' ' Variant.normal + lineW m rest2 ≤ aw := by
        rw [lineW_snoc2]
        rw [← hle2] at hle
        linarith
      rw [show altWords (⟨t, plainStyle⟩ :: ⟨[' '], plainStyle⟩ :: rest2) =
          t :: altWords rest2 from rfl]
      rw [List.foldl_cons]
      rw [splitWordStep_fit m aw (lineW m cur0) cur0 (AltLine_ne_nil hcur) t
        hfit1]
      rw [show lineW m cur0 + m ' ' Variant.normal + strW m Variant.normal t =
          lineW m (cur0 ++ [⟨[' '], plainStyle⟩, ⟨t, plainStyle⟩]) from
        (lineW_snoc2 m cur0 t).symm]
      have hrec := ih (cur0 ++ [⟨[' '], plainStyle⟩, ⟨t, plainStyle⟩])
        (AltLine_append hcur ⟨t, plainStyle⟩ ⟨rfl, hW⟩) hb
      rw [List.append_assoc] at hrec
      exact hrec

theorem splitWordStep_first (m : Meas) (aw : ℚ) (word : List Char)
    (hfit : strW m Variant.normal word ≤ aw) :
    splitWordStep m (m ' ' Variant.normal) aw plainStyle
        ⟨[], [], 0, Variant.normal⟩ word =
      ⟨[], [⟨word, plainStyle⟩], strW m Variant.normal word,
        Variant.normal⟩ := by
  unfold splitWordStep
  simp only [variantOf_plain, eq_self_iff_true, if_true, zero_add, add_zero]
  rw [if_pos hfit]

theorem altFold_rebuild (m : Meas) (aw : ℚ) (hm : ∀ c v, 0 ≤ m c v)
    (line : List TextSegment) (hAlt : AltLine line)
    (hle : lineW m line ≤ aw) :
    (altWords line).foldl
        (splitWordStep m (m ' ' Variant.normal) aw plainStyle)
        ⟨[], [], 0, Variant.normal⟩ =
      ⟨[], line, lineW m line, Variant.normal⟩ := by
  cases hAlt with
  | single s hs =>
      obtain ⟨t, st⟩ := s
      obtain ⟨hst, hW⟩ := hs
      dsimp only at hst
      subst hst
      have h1 : lineW m ([⟨t, plainStyle⟩] : List TextSegment) =
          strW m Variant.normal t := by
        simp [lineW, segW_plain]
      show splitWordStep m (m ' ' Variant.normal) aw plainStyle
          ⟨[], [], 0, Variant.normal⟩ t = _
      rw [splitWordStep_first m aw t (by rw [h1] at hle; exact hle), h1]
  | more s rest2 hs hr =>
      obtain ⟨t, st⟩ := s
      obtain ⟨hst, hW⟩ := hs
      dsimp only at hst
      subst hst
      have h1 : lineW m ([⟨t, plainStyle⟩] : List TextSegment) =
          strW m Variant.normal t := by
        simp [lineW, segW_plain]
      have h2 : strW m Variant.normal t + m ' ' Variant.normal +
          lineW m rest2 =
          lineW m (⟨t, plainStyle⟩ :: ⟨[' '], plainStyle⟩ :: rest2) := by
        simp [lineW, segW_plain, segW_space, strW]
        ring
      have hsw : 0 ≤ m ' ' Variant.normal := hm ' ' Variant.normal
      have hr2 : 0 ≤ lineW m rest2 := lineW_nonneg m hm rest2
      have hfit1 : strW m Variant.normal t ≤ aw := by
        rw [← h2] at hle
        linarith
      have hb : lineW m ([⟨t, plainStyle⟩] : List TextSegment) +
          m ' ' Variant.normal + lineW m rest2 ≤ aw := by
        rw [h1]
        rw [← h2] at hle
        linarith
      rw [show altWords (⟨t, plainStyle⟩ :: ⟨[' '], plainStyle⟩ :: rest2) =
          t :: altWords rest2 from rfl]
      rw [List.foldl_cons]
      rw [splitWordStep_first m aw t hfit1]
      rw [show strW m Variant.normal t =
          lineW m ([⟨t, plainStyle⟩] : List TextSegment) from h1.symm]
      have hrec := rebuild_fold m aw hm rest2 hr [⟨t, plainStyle⟩]
        (AltLine.single _ ⟨rfl, hW⟩) hb
      rw [List.singleton_append] at hrec
      exact hrec

theorem rebreak_single (m : Meas) (fsz maxWidth baseIndentation : ℚ)
    (hm : ∀ c v, 0 ≤ m c v)
    (line : List TextSegment) (hAlt : AltLine line)
    (hle : lineW m line ≤ maxWidth - baseIndentation * fsz) :
    splitTextToLines m Variant.normal fsz
        [⟨textConcat line, plainStyle⟩] maxWidth baseIndentation = [line] := by
  have hne := AltLine_ne_nil hAlt
  unfold splitTextToLines splitTextToLinesSt
  dsimp only
  rw [List.foldl_cons, List.foldl_nil]
  rw [show splitSegStep m (m ' ' Variant.normal)
        (maxWidth - baseIndentation * fsz)
        ⟨[], [], 0, Variant.normal⟩ ⟨textConcat line, plainStyle⟩ =
      (wordsOf (textConcat line)).foldl
        (splitWordStep m (m ' ' Variant.normal)
          (maxWidth - baseIndentation * fsz) plainStyle)
        ⟨[], [], 0, Variant.normal⟩ from rfl]
  rw [wordsOf_altLine line hAlt]
  rw [altFold_rebuild m (maxWidth - baseIndentation * fsz) hm line hAlt hle]
  rw [show commitLine ⟨[], line, lineW m line, Variant.normal⟩ =
      ⟨[line], [], 0, Variant.normal⟩ from by
    unfold commitLine
    rw [if_neg hne]
    rfl]
  dsimp only
  rw [List.filter_cons, List.filter_nil]
  rw [if_pos (by simpa using hne)]
  rw [List.foldl_cons, List.foldl_nil]
  unfold fixLine
  dsimp only
  rw [if_neg (not_lt.mpr hle)]
  rfl

/-- C7 (amended): for the plain flow — non-negative metrics, non-negative
available width, input runs all of the plain style and free of inline
markers outside whitespace — breaking is idempotent: every nonempty line
produced by `splitTextToLines` re-breaks, after `parseInlineMarkdown` of
its concatenated text as the renderer would feed it, to exactly that one
line with the same boundaries. The unrestricted claim fails because the
concatenated text loses the runs' styles, so a styled line can re-break
with different boundaries (see the counterexample). -/
theorem claim_C7_amended (m : Meas) (fsz : ℚ)
    (segments : List TextSegment) (maxWidth baseIndentation : ℚ)
    (hm : ∀ c v, 0 ≤ m c v)
    (haw : 0 ≤ maxWidth - baseIndentation * fsz)
    (hpl : ∀ seg ∈ segments, seg.style = plainStyle)
    (hnm : ∀ seg ∈ segments, ∀ c ∈ seg.text,
      isWs c = false → isMarker c = false) :
    ∀ line ∈ splitTextToLines m Variant.normal fsz segments maxWidth
        baseIndentation, line ≠ [] →
      splitTextToLines m Variant.normal fsz
          (parseInlineMarkdown (textConcat line)) maxWidth baseIndentation =
        [line] := by
  intro line hmem hne
  have hout := splitTextToLines_out m fsz segments maxWidth baseIndentation
    hm haw hpl hnm line hmem
  rcases hout with h0 | ⟨hAlt, hle⟩
  · exact absurd h0 hne
  have hcc := altLine_concat_ok line hAlt
  have hpim : parseInlineMarkdown (textConcat line) =
      [⟨textConcat line, plainStyle⟩] := by
    unfold parseInlineMarkdown
    rw [pimGo_no_marker (textConcat line) [] plainStyle hcc.2]
    rw [if_neg (by simpa using hcc.1)]
    rfl
  rw [hpim]
  exact rebreak_single m fsz maxWidth baseIndentation hm line hAlt hle

/-- C7 (witness): the plain two-word input `"aa bb"` at width 100 breaks to
the single line `aa·␣·bb`, and re-breaking that line's concatenated text
reproduces exactly the same line. -/
theorem claim_C7_witness :
    splitTextToLines mOne Variant.normal 10
        (parseInlineMarkdown (textConcat
          ([⟨"aa".data, plainStyle⟩, ⟨[' '], plainStyle⟩,
            ⟨"bb".data, plainStyle⟩] : List TextSegment))) 100 0 =
      [([⟨"aa".data, plainStyle⟩, ⟨[' '], plainStyle⟩,
         ⟨"bb".data, plainStyle⟩] : List TextSegment)] := by
  have hsplit : splitTextToLines mOne Variant.normal 10
      ([⟨"aa bb".data, plainStyle⟩] : List TextSegment) 100 0 =
      [([⟨"aa".data, plainStyle⟩, ⟨[' '], plainStyle⟩,
         ⟨"bb".data, plainStyle⟩] : List TextSegment)] := by
    norm_num +decide [splitTextToLines, splitTextToLinesSt, splitSegStep,
      splitWordStep, commitLine, splitWordIfNeeded, swinGo, fixLine,
      repairLine, repairSegStep, repairPartStep, wordsOf, wordsGo, strW,
      segW, lineW, variantOf, plainStyle, mOne, isWs, isMarker]
  refine claim_C7_amended mOne 10
    ([⟨"aa bb".data, plainStyle⟩] : List TextSegment) 100 0
    (fun c v => by norm_num [mOne]) (by norm_num)
    (by
      intro seg hs
      rw [List.mem_singleton.mp hs])
    (by
      intro seg hs
      rw [List.mem_singleton.mp hs]
      intro c hc _
      have hall : ∀ c ∈ "aa bb".data, isMarker c = false := by decide
      exact hall c hc)
    _ (by rw [hsplit]; exact List.mem_singleton.mpr rfl) (by simp)
